import Mathlib

/-!
Shallow embedding of the RS scoring and ranking engine of
src/scripts/calculate_rs_from_db.py (RS-Rating), together with theorems
checking the specification's claims about it.

Modelling conventions:
* Python float arithmetic is embedded as exact rational arithmetic over ℚ.
* The NaN sentinel the source uses for "value absent" is embedded as
  Option, with none standing for NaN.
* Where the source can produce IEEE infinities (division of a nonzero
  number by an exact zero in relative_strength), the result domain RSVal
  carries explicit plus/minus infinity values; a 0/0 (NaN) result is
  embedded as none.
* Python exceptions are embedded with Except.
-/

/-- Embedding of the Python slice closes[-k:] taking the trailing k
observations; for k = 0 Python's -0 index makes the slice the whole
series. -/
def takeTrailing (closes : List ℚ) (k : ℕ) : List ℚ :=
  if k = 0 then closes else closes.drop (closes.length - k)

/-- Embedding of pandas Series.pct_change().dropna() on a NaN-free
series: the list of per-step percentage changes, one per consecutive
pair. -/
def pct_changes (l : List ℚ) : List ℚ :=
  (l.zip l.tail).map (fun p => (p.2 - p.1) / p.1)

/-- Body of quarters_perf once the trailing window has been taken:
NaN (none) on an empty window, 0.0 on a single observation, otherwise
the compounded product of (1 + pct_change) minus 1. -/
def quartersPerfAux (available_data : List ℚ) : Option ℚ :=
  if available_data.length < 1 then none
  else if available_data.length = 1 then some 0
  else if pct_changes available_data = [] then none
  else some (((pct_changes available_data).map (fun p => p + 1)).prod - 1)

/-- Embedding of quarters_perf (src/scripts/calculate_rs_from_db.py,
lines 19-27): operate on the trailing min(len(closes), n*63)
observations. -/
def quarters_perf (closes : List ℚ) (n : ℕ) : Option ℚ :=
  quartersPerfAux (takeTrailing closes (min closes.length (n * 63)))

/-- Embedding of strength (lines 29-37): compute the four quarterly
windows, keep the defined figures, truncate the weight list
[0.4, 0.2, 0.2, 0.2] to the number of defined figures, renormalize by
the truncated total when it is positive, and return the weighted sum. -/
def strength (closes : List ℚ) : Option ℚ :=
  let perfs := [quarters_perf closes 1, quarters_perf closes 2,
    quarters_perf closes 3, quarters_perf closes 4]
  let valid_perfs := perfs.filterMap id
  if valid_perfs = [] then none
  else
    let weights := ([0.4, 0.2, 0.2, 0.2] : List ℚ).take valid_perfs.length
    let total_weight := weights.sum
    let weights2 := if 0 < total_weight then weights.map (fun w => w / total_weight)
      else weights
    some (((weights2.zip valid_perfs).map (fun p => p.1 * p.2)).sum)

/-- Value domain for relative_strength results: a finite rational or one
of the IEEE infinities that float division by an exact zero produces,
ordered the way floats are ordered (bottom is minus infinity, top is
plus infinity). A NaN result is represented by none one level up. -/
abbrev RSVal : Type := WithBot (WithTop ℚ)

/-- A finite relative-strength value. -/
def RSVal.fin (q : ℚ) : RSVal := ((q : WithTop ℚ) : WithBot (WithTop ℚ))

/-- The float plus-infinity produced by x / 0.0 with 0 < x. -/
def RSVal.posInf : RSVal := ((⊤ : WithTop ℚ) : WithBot (WithTop ℚ))

/-- The float minus-infinity produced by x / 0.0 with x < 0. -/
def RSVal.negInf : RSVal := (⊥ : WithBot (WithTop ℚ))

/-- Embedding of relative_strength (lines 39-46). The source returns NaN
when either strength is NaN and otherwise computes
rs = (1 + rs_stock) / (1 + rs_ref) * 100 in float arithmetic with no
guard on the denominator: when 1 + rs_ref = 0, IEEE division yields a
signed infinity for a nonzero numerator and NaN (none) for 0/0. -/
def relative_strength (closes closes_ref : List ℚ) : Option RSVal :=
  match strength closes, strength closes_ref with
  | some rs_stock, some rs_ref =>
    if 1 + rs_ref = 0 then
      if 1 + rs_stock = 0 then none
      else if 0 < 1 + rs_stock then some RSVal.posInf
      else some RSVal.negInf
    else some (RSVal.fin ((1 + rs_stock) / (1 + rs_ref) * 100))
  | _, _ => none

/-- The defined (non-NaN) values of a ticker-to-metric mapping, in input
order: embedding of rs_values.dropna(). -/
def validValues {α : Type} (l : List (String × Option α)) : List α :=
  l.filterMap Prod.snd

/-- The 0-based competition rank of v among the defined values:
pandas rank(method="min") minus 1, i.e. the number of strictly smaller
defined values. -/
def rankMin0 {α : Type} [LinearOrder α] (vs : List α) (v : α) : ℕ :=
  (vs.filter (fun w => w < v)).length

/-- Embedding of ranks.max(): the largest 0-based rank attained over the
defined values. -/
def maxRank {α : Type} [LinearOrder α] (vs : List α) : ℕ :=
  (vs.map (rankMin0 vs)).foldr max 0

/-- numpy/pandas Series.round(): round half to even. -/
def roundHalfEven (q : ℚ) : ℤ :=
  if q - (Int.floor q : ℚ) < 1 / 2 then Int.floor q
  else if 1 / 2 < q - (Int.floor q : ℚ) then Int.floor q + 1
  else if Int.floor q % 2 = 0 then Int.floor q
  else Int.floor q + 1

/-- The percentile assigned to one defined value:
(rank / ranks.max() * 99).round(). -/
def pctOf {α : Type} [LinearOrder α] (vs : List α) (v : α) : ℤ :=
  roundHalfEven ((rankMin0 vs v : ℚ) / (maxRank vs : ℚ) * 99)

/-- Embedding of calculate_rs_percentile (lines 48-57). When every
defined value is tied, every 0-based rank is 0, ranks.max() is 0, the
division 0/0 yields NaN for every entry, and .astype(int) raises
(pandas cannot cast non-finite values to int): that exception is
embedded as Except.error (). -/
def calculate_rs_percentile {α : Type} [LinearOrder α]
    (rs_values : List (String × Option α)) :
    Except Unit (List (String × Option ℤ)) :=
  if validValues rs_values = [] then .ok (rs_values.map (fun p => (p.1, none)))
  else if maxRank (validValues rs_values) = 0 then .error ()
  else .ok (rs_values.map (fun p => (p.1, p.2.map (pctOf (validValues rs_values)))))

/-- One row of the per-ticker loop output (lines 206-233): current RS
and the three lagged RS values; none embeds NaN. -/
structure Row where
  ticker : String
  rs : Option RSVal
  rs1m : Option RSVal
  rs3m : Option RSVal
  rs6m : Option RSVal
deriving DecidableEq

/-- Loop body for a retrievable ticker (lines 212-227): fewer than 2
observations gives an all-NaN row; otherwise the current RS over the
full pair plus three lagged RS values, each lag guarded by
len(closes) > k and recomputed on closes[:-k] and ref_closes[:-k]. -/
def buildRow (t : String) (closes ref_closes : List ℚ) : Row :=
  if closes.length < 2 then ⟨t, none, none, none, none⟩
  else
    ⟨t, relative_strength closes ref_closes,
      if 20 < closes.length then
        relative_strength (closes.take (closes.length - 20))
          (ref_closes.take (ref_closes.length - 20))
      else none,
      if 60 < closes.length then
        relative_strength (closes.take (closes.length - 60))
          (ref_closes.take (ref_closes.length - 60))
      else none,
      if 120 < closes.length then
        relative_strength (closes.take (closes.length - 120))
          (ref_closes.take (ref_closes.length - 120))
      else none⟩

/-- Per-ticker step including the try/except of lines 209-233: a failing
retrieval is caught and recorded as an all-NaN row; the loop always
continues. -/
def processTicker (store : String → Except String (List ℚ)) (ref_closes : List ℚ)
    (t : String) : Row :=
  match store t with
  | .error _ => ⟨t, none, none, none, none⟩
  | .ok closes => buildRow t closes ref_closes

/-- Result of the scoring part of main: the rows, the four percentile
columns, and the IPO (short-history) flags. -/
structure PipelineOutput where
  rows : List Row
  percRS : List (String × Option ℤ)
  perc1m : List (String × Option ℤ)
  perc3m : List (String × Option ℤ)
  perc6m : List (String × Option ℤ)
  ipo : List (String × Bool)
deriving DecidableEq

/-- Embedding of the scoring part of main (lines 122-256) over an
abstract price store: reference lookup and its minimum-history check,
the per-ticker loop, the four percentile columns, the empty-result
check, and the IPO flag pass of line 256, which re-reads every ticker
outside any try/except so a store failure propagates. Logging, the
purely informational pre-check loop, metadata enrichment, row sorting
and CSV serialization are output formatting with no effect on these
values and are not modelled. -/
def mainPipeline (store : String → Except String (List ℚ)) (tickers : List String)
    (reference_ticker : String) : Except String PipelineOutput :=
  if reference_ticker ∈ tickers then
    match store reference_ticker with
    | .error e => .error e
    | .ok ref_closes =>
      if ref_closes.length < 20 then .error ("Not enough reference ticker data")
      else
        let rows := (tickers.filter (fun t => t ≠ reference_ticker)).map
          (processTicker store ref_closes)
        match calculate_rs_percentile (rows.map (fun r => (r.ticker, r.rs))),
            calculate_rs_percentile (rows.map (fun r => (r.ticker, r.rs1m))),
            calculate_rs_percentile (rows.map (fun r => (r.ticker, r.rs3m))),
            calculate_rs_percentile (rows.map (fun r => (r.ticker, r.rs6m))) with
        | .ok p0, .ok p1, .ok p3, .ok p6 =>
          if rows = [] then .error ("No RS results calculated")
          else
            match rows.mapM (fun r =>
                (store r.ticker).map (fun data => (r.ticker, decide (data.length < 20)))) with
            | .error e => .error e
            | .ok ipoFlags => .ok ⟨rows, p0, p1, p3, p6, ipoFlags⟩
        | _, _, _, _ => .error ("cannot convert non-finite values to integer")
  else .error ("Reference ticker not found")

/-- Modelled from the spec: the trailing min(len(series), 63*n) most
recent observations, the window the spec says PerformanceWindow operates
on. -/
def trailingWindow (closes : List ℚ) (n : ℕ) : List ℚ :=
  closes.drop (closes.length - min closes.length (n * 63))

/-- Modelled from the spec: the compounded per-step return
prod (1 + pct_change_i) - 1 over a window. -/
def compoundedReturn (w : List ℚ) : ℚ :=
  ((pct_changes w).map (fun p => p + 1)).prod - 1

/-- Modelled from the spec: truncating the last k observations off a
series (4.5 step 4). -/
def truncLast (k : ℕ) (l : List ℚ) : List ℚ :=
  l.take (l.length - k)

/-! Helper lemmas about the rounding function and list folds. -/

lemma roundHalfEven_intCast (k : ℤ) : roundHalfEven (k : ℚ) = k := by
  unfold roundHalfEven
  rw [Int.floor_intCast]
  norm_num

lemma roundHalfEven_nonneg {q : ℚ} (h : 0 ≤ q) : 0 ≤ roundHalfEven q := by
  have hfl : 0 ≤ Int.floor q := Int.floor_nonneg.mpr h
  unfold roundHalfEven
  split
  · exact hfl
  · split
    · omega
    · split <;> omega

lemma roundHalfEven_le {q : ℚ} {N : ℤ} (h : q ≤ (N : ℚ)) : roundHalfEven q ≤ N := by
  have hfl : Int.floor q ≤ N := by
    have h2 := Int.floor_mono h
    rwa [Int.floor_intCast] at h2
  unfold roundHalfEven
  by_cases h1 : q - (Int.floor q : ℚ) < 1 / 2
  · rw [if_pos h1]
    exact hfl
  · have hlt : Int.floor q < N := by
      rcases lt_or_eq_of_le hfl with h2 | h2
      · exact h2
      · exfalso
        apply h1
        rw [h2]
        have h3 : q - (N : ℚ) ≤ 0 := by linarith
        linarith
    rw [if_neg h1]
    split
    · omega
    · split <;> omega

lemma le_foldr_max {l : List ℕ} {x : ℕ} (hx : x ∈ l) : x ≤ l.foldr max 0 := by
  induction l with
  | nil => cases hx
  | cons a t ih =>
    rcases List.mem_cons.mp hx with h | h
    · subst h
      exact le_max_left _ _
    · exact le_trans (ih h) (le_max_right _ _)

lemma foldr_max_le {l : List ℕ} {b : ℕ} (h : ∀ x ∈ l, x ≤ b) : l.foldr max 0 ≤ b := by
  induction l with
  | nil => simp
  | cons a t ih =>
    simp only [List.foldr_cons]
    exact max_le (h a (List.mem_cons_self _ _)) (ih fun x hx => h x (List.mem_cons_of_mem _ hx))

lemma pct_changes_length (l : List ℚ) : (pct_changes l).length = l.length - 1 := by
  simp only [pct_changes, List.length_map, List.length_zip, List.length_tail]
  omega

lemma takeTrailing_min_eq (closes : List ℚ) (n : ℕ) (hn : 1 ≤ n) :
    takeTrailing closes (min closes.length (n * 63)) = trailingWindow closes n := by
  unfold takeTrailing trailingWindow
  by_cases h0 : min closes.length (n * 63) = 0
  · rw [if_pos h0]
    have hlen : closes.length = 0 := by omega
    have hnil : closes = [] := List.length_eq_zero.mp hlen
    simp [hnil]
  · rw [if_neg h0]

lemma trailingWindow_length (closes : List ℚ) (n : ℕ) :
    (trailingWindow closes n).length = min closes.length (n * 63) := by
  unfold trailingWindow
  rw [List.length_drop]
  omega

/-- C5: evaluation of the code at a benchmark whose StrengthScore is
exactly -1 (a total wipeout series [1, 0]). The comparator does not
return undefined: the unguarded division (1 + 0) / (1 + (-1)) * 100 is a
division of a positive numerator by zero, which the source's float
arithmetic propagates as plus-infinity, a defined value. -/
theorem C5_benchmark_wipeout_division :
    strength [(1 : ℚ), 0] = some (-1) ∧
    relative_strength [(1 : ℚ), 1] [(1 : ℚ), 0] = some RSVal.posInf ∧
    relative_strength [(1 : ℚ), 1] [(1 : ℚ), 0] ≠ none := by
  have h1 : strength [(1 : ℚ), 0] = some (-1) := by
    simp only [strength, quarters_perf, quartersPerfAux, takeTrailing, pct_changes]
    norm_num [List.filterMap_cons]
    intro h
    cases h
  have h2 : relative_strength [(1 : ℚ), 1] [(1 : ℚ), 0] = some RSVal.posInf := by
    simp only [relative_strength, strength, quarters_perf, quartersPerfAux, takeTrailing,
      pct_changes]
    norm_num [List.filterMap_cons]
    simp
  refine ⟨h1, h2, ?_⟩
  rw [h2]
  intro h
  cases h

/-- C8: comparing a series against itself yields exactly 100 whenever
the result is defined. -/
theorem C8_self_comparison_hundred (X : List ℚ) (v : RSVal)
    (h : relative_strength X X = some v) : v = RSVal.fin 100 := by
  unfold relative_strength at h
  cases hs : strength X with
  | none =>
    rw [hs] at h
    cases h
  | some s =>
    rw [hs] at h
    simp only [] at h
    by_cases h0 : 1 + s = 0
    · rw [if_pos h0, if_pos h0] at h
      cases h
    · rw [if_neg h0] at h
      have hv : RSVal.fin ((1 + s) / (1 + s) * 100) = v := by
        injection h
      rw [← hv, div_self h0, one_mul]

/-- Witness for C8 at the concrete series [1, 1]. -/
theorem C8_self_comparison_hundred_witness :
    relative_strength [(1 : ℚ), 1] [(1 : ℚ), 1] = some (RSVal.fin 100) ∧
    RSVal.fin 100 = RSVal.fin 100 := by
  have h : relative_strength [(1 : ℚ), 1] [(1 : ℚ), 1] = some (RSVal.fin 100) := by
    simp only [relative_strength, strength, quarters_perf, quartersPerfAux, takeTrailing,
      pct_changes]
    norm_num [List.filterMap_cons, RSVal.fin]
    simp
  exact ⟨h, C8_self_comparison_hundred [1, 1] (RSVal.fin 100) h⟩

lemma rankMin0_le_rankMin0 {α : Type} [LinearOrder α] (vs : List α) {w v : α}
    (h : w ≤ v) : rankMin0 vs w ≤ rankMin0 vs v := by
  unfold rankMin0
  rw [← List.countP_eq_length_filter, ← List.countP_eq_length_filter]
  apply List.countP_mono_left
  intro a _ ha
  simp only [decide_eq_true_eq] at ha ⊢
  exact lt_of_lt_of_le ha h

lemma rankMin0_le_maxRank {α : Type} [LinearOrder α] {vs : List α} {v : α}
    (hv : v ∈ vs) : rankMin0 vs v ≤ maxRank vs :=
  le_foldr_max (List.mem_map_of_mem _ hv)

lemma maxRank_pos {α : Type} [LinearOrder α] {vs : List α} {a b : α}
    (ha : a ∈ vs) (hb : b ∈ vs) (hab : a ≠ b) : 0 < maxRank vs := by
  rcases lt_or_gt_of_ne hab with hlt | hlt
  · have h1 : 0 < rankMin0 vs b := by
      have hm : a ∈ vs.filter (fun w => w < b) :=
        List.mem_filter.mpr ⟨ha, by simpa using hlt⟩
      have := List.length_pos.mpr (List.ne_nil_of_mem hm)
      simpa [rankMin0] using this
    exact lt_of_lt_of_le h1 (rankMin0_le_maxRank hb)
  · have h1 : 0 < rankMin0 vs a := by
      have hm : b ∈ vs.filter (fun w => w < a) :=
        List.mem_filter.mpr ⟨hb, by simpa using hlt⟩
      have := List.length_pos.mpr (List.ne_nil_of_mem hm)
      simpa [rankMin0] using this
    exact lt_of_lt_of_le h1 (rankMin0_le_maxRank ha)

lemma pctOf_bounds {α : Type} [LinearOrder α] {vs : List α} {v : α}
    (hv : v ∈ vs) (hM : 0 < maxRank vs) : 0 ≤ pctOf vs v ∧ pctOf vs v ≤ 99 := by
  have hMq : (0 : ℚ) < (maxRank vs : ℚ) := by exact_mod_cast hM
  have hRle : ((rankMin0 vs v : ℕ) : ℚ) ≤ ((maxRank vs : ℕ) : ℚ) := by
    exact_mod_cast rankMin0_le_maxRank hv
  have hq0 : (0 : ℚ) ≤ (rankMin0 vs v : ℚ) / (maxRank vs : ℚ) * 99 := by positivity
  have hq99 : (rankMin0 vs v : ℚ) / (maxRank vs : ℚ) * 99 ≤ ((99 : ℤ) : ℚ) := by
    have hdiv : (rankMin0 vs v : ℚ) / (maxRank vs : ℚ) ≤ 1 := (div_le_one hMq).mpr hRle
    have := mul_le_mul_of_nonneg_right hdiv (by norm_num : (0 : ℚ) ≤ 99)
    rw [one_mul] at this
    exact le_trans this (by norm_num)
  exact ⟨roundHalfEven_nonneg hq0, roundHalfEven_le hq99⟩

lemma pctOf_min {α : Type} [LinearOrder α] {vs : List α} {v : α}
    (hmin : ∀ w ∈ vs, v ≤ w) : pctOf vs v = 0 := by
  have hr : rankMin0 vs v = 0 := by
    unfold rankMin0
    rw [List.length_eq_zero, List.filter_eq_nil_iff]
    intro a ha
    simp only [decide_eq_true_eq]
    exact not_lt.mpr (hmin a ha)
  unfold pctOf
  rw [hr]
  have h0 : ((0 : ℕ) : ℚ) / (maxRank vs : ℚ) * 99 = ((0 : ℤ) : ℚ) := by
    simp
  rw [h0, roundHalfEven_intCast]

lemma pctOf_max {α : Type} [LinearOrder α] {vs : List α} {v : α} (hv : v ∈ vs)
    (hM : 0 < maxRank vs) (hmax : ∀ w ∈ vs, w ≤ v) : pctOf vs v = 99 := by
  have hR : rankMin0 vs v = maxRank vs := by
    refine le_antisymm (rankMin0_le_maxRank hv) (foldr_max_le ?_)
    intro x hx
    obtain ⟨w, hw, rfl⟩ := List.mem_map.mp hx
    exact rankMin0_le_rankMin0 vs (hmax w hw)
  unfold pctOf
  rw [hR]
  have h99 : ((maxRank vs : ℕ) : ℚ) / (maxRank vs : ℚ) * 99 = ((99 : ℤ) : ℚ) := by
    rw [div_self (by exact_mod_cast hM.ne')]
    norm_num
  rw [h99, roundHalfEven_intCast]

/-- C1: with more than one distinct defined value, calculate_rs_percentile
assigns every defined entry the integer percentile
round(rank / max_rank * 99) built from the 0-based min-style competition
rank; the percentile lies in [0, 99], the minimum defined value gets 0,
the maximum gets 99, equal values share their percentile, and undefined
entries get none. -/
theorem C1_percentile_formula (l : List (String × Option ℚ))
    (h : ∃ a ∈ validValues l, ∃ b ∈ validValues l, a ≠ b) :
    calculate_rs_percentile l =
      .ok (l.map (fun p => (p.1, p.2.map (pctOf (validValues l))))) ∧
    (∀ v ∈ validValues l,
      pctOf (validValues l) v =
        roundHalfEven ((rankMin0 (validValues l) v : ℚ) / (maxRank (validValues l) : ℚ) * 99)) ∧
    (∀ v ∈ validValues l, 0 ≤ pctOf (validValues l) v ∧ pctOf (validValues l) v ≤ 99) ∧
    (∀ v ∈ validValues l, (∀ w ∈ validValues l, v ≤ w) → pctOf (validValues l) v = 0) ∧
    (∀ v ∈ validValues l, (∀ w ∈ validValues l, w ≤ v) → pctOf (validValues l) v = 99) := by
  obtain ⟨a, ha, b, hb, hab⟩ := h
  have hM : 0 < maxRank (validValues l) := maxRank_pos ha hb hab
  have hne : validValues l ≠ [] := List.ne_nil_of_mem ha
  refine ⟨?_, ?_, ?_, ?_, ?_⟩
  · unfold calculate_rs_percentile
    rw [if_neg hne, if_neg hM.ne']
  · intro v _
    rfl
  · intro v hv
    exact pctOf_bounds hv hM
  · intro v _ hmin
    exact pctOf_min hmin
  · intro v hv hmax
    exact pctOf_max hv hM hmax

/-- Witness for C1 at the concrete mapping A -> 1, B -> 2. -/
theorem C1_percentile_formula_witness :
    (∃ a ∈ validValues [("A", some (1 : ℚ)), ("B", some 2)],
      ∃ b ∈ validValues [("A", some (1 : ℚ)), ("B", some 2)], a ≠ b) ∧
    (calculate_rs_percentile [("A", some (1 : ℚ)), ("B", some 2)] =
      .ok ([("A", some (1 : ℚ)), ("B", some 2)].map
        (fun p => (p.1, p.2.map (pctOf (validValues [("A", some (1 : ℚ)), ("B", some 2)]))))) ∧
     (∀ v ∈ validValues [("A", some (1 : ℚ)), ("B", some 2)],
       pctOf (validValues [("A", some (1 : ℚ)), ("B", some 2)]) v =
         roundHalfEven ((rankMin0 (validValues [("A", some (1 : ℚ)), ("B", some 2)]) v : ℚ) /
           (maxRank (validValues [("A", some (1 : ℚ)), ("B", some 2)]) : ℚ) * 99)) ∧
     (∀ v ∈ validValues [("A", some (1 : ℚ)), ("B", some 2)],
       0 ≤ pctOf (validValues [("A", some (1 : ℚ)), ("B", some 2)]) v ∧
       pctOf (validValues [("A", some (1 : ℚ)), ("B", some 2)]) v ≤ 99) ∧
     (∀ v ∈ validValues [("A", some (1 : ℚ)), ("B", some 2)],
       (∀ w ∈ validValues [("A", some (1 : ℚ)), ("B", some 2)], v ≤ w) →
       pctOf (validValues [("A", some (1 : ℚ)), ("B", some 2)]) v = 0) ∧
     (∀ v ∈ validValues [("A", some (1 : ℚ)), ("B", some 2)],
       (∀ w ∈ validValues [("A", some (1 : ℚ)), ("B", some 2)], w ≤ v) →
       pctOf (validValues [("A", some (1 : ℚ)), ("B", some 2)]) v = 99)) :=
  ⟨⟨1, by simp [validValues], 2, by simp [validValues], by norm_num⟩,
    C1_percentile_formula [("A", some (1 : ℚ)), ("B", some 2)]
      ⟨1, by simp [validValues], 2, by simp [validValues], by norm_num⟩⟩

/-- C4: evaluation of the code at mappings whose defined entries all
share one value. The degenerate max_rank = 0 case is not defined as
percentile 0: ranks.max() is 0, the division is 0/0 = NaN, and the
.astype(int) cast raises, so the call fails instead of returning 0. -/
theorem C4_degenerate_percentile_crash :
    calculate_rs_percentile [("A", some (100 : ℚ)), ("B", some 100)] = .error () ∧
    calculate_rs_percentile [("A", some (100 : ℚ))] = .error () := by
  constructor
  · unfold calculate_rs_percentile
    rw [if_neg (by simp [validValues]), if_pos (by rfl)]
  · unfold calculate_rs_percentile
    rw [if_neg (by simp [validValues]), if_pos (by rfl)]

lemma foldr_max_perm {l₁ l₂ : List ℕ} (h : l₁.Perm l₂) :
    l₁.foldr max 0 = l₂.foldr max 0 := by
  induction h with
  | nil => rfl
  | cons x _ ih => simp only [List.foldr_cons, ih]
  | swap x y t => simp only [List.foldr_cons]; rw [max_left_comm]
  | trans _ _ ih₁ ih₂ => rw [ih₁, ih₂]

lemma rankMin0_perm {α : Type} [LinearOrder α] {vs₁ vs₂ : List α}
    (h : vs₁.Perm vs₂) (v : α) : rankMin0 vs₁ v = rankMin0 vs₂ v := by
  unfold rankMin0
  rw [← List.countP_eq_length_filter, ← List.countP_eq_length_filter]
  exact h.countP_eq _

lemma maxRank_perm {α : Type} [LinearOrder α] {vs₁ vs₂ : List α}
    (h : vs₁.Perm vs₂) : maxRank vs₁ = maxRank vs₂ := by
  unfold maxRank
  have hmapeq : vs₁.map (rankMin0 vs₁) = vs₁.map (rankMin0 vs₂) :=
    List.map_congr_left (fun v _ => rankMin0_perm h v)
  rw [hmapeq]
  exact foldr_max_perm (h.map _)

lemma pctOf_perm {α : Type} [LinearOrder α] {vs₁ vs₂ : List α}
    (h : vs₁.Perm vs₂) (v : α) : pctOf vs₁ v = pctOf vs₂ v := by
  unfold pctOf
  rw [rankMin0_perm h, maxRank_perm h]

/-- C9: calculate_rs_percentile is invariant under permutation of the
input mapping: each value's percentile is identical, the crash condition
is identical, and on success the two outputs are permutations of one
another, so every ticker receives the same percentile. -/
theorem C9_permutation_invariance (l₁ l₂ : List (String × Option ℚ)) (h : l₁.Perm l₂) :
    (∀ v : ℚ, pctOf (validValues l₁) v = pctOf (validValues l₂) v) ∧
    (calculate_rs_percentile l₁ = .error () ↔ calculate_rs_percentile l₂ = .error ()) ∧
    (∀ out₁ out₂, calculate_rs_percentile l₁ = .ok out₁ →
      calculate_rs_percentile l₂ = .ok out₂ → out₁.Perm out₂) := by
  have hvs : (validValues l₁).Perm (validValues l₂) := h.filterMap _
  have hpct := pctOf_perm hvs
  refine ⟨hpct, ?_, ?_⟩
  · unfold calculate_rs_percentile
    by_cases he : validValues l₁ = []
    · have he₂ : validValues l₂ = [] := by
        have := hvs.length_eq
        rw [he] at this
        exact List.length_eq_zero.mp this.symm
      rw [if_pos he, if_pos he₂]
      simp
    · have he₂ : validValues l₂ ≠ [] := by
        intro hc
        apply he
        have := hvs.length_eq
        rw [hc] at this
        exact List.length_eq_zero.mp this
      rw [if_neg he, if_neg he₂, maxRank_perm hvs]
      by_cases hm : maxRank (validValues l₂) = 0
      · rw [if_pos hm, if_pos hm]
      · rw [if_neg hm, if_neg hm]
        simp
  · intro out₁ out₂ h₁ h₂
    unfold calculate_rs_percentile at h₁ h₂
    by_cases he : validValues l₁ = []
    · have he₂ : validValues l₂ = [] := by
        have := hvs.length_eq
        rw [he] at this
        exact List.length_eq_zero.mp this.symm
      rw [if_pos he] at h₁
      rw [if_pos he₂] at h₂
      injection h₁ with h₁
      injection h₂ with h₂
      rw [← h₁, ← h₂]
      exact h.map _
    · have he₂ : validValues l₂ ≠ [] := by
        intro hc
        apply he
        have := hvs.length_eq
        rw [hc] at this
        exact List.length_eq_zero.mp this
      rw [if_neg he] at h₁
      rw [if_neg he₂] at h₂
      by_cases hm : maxRank (validValues l₁) = 0
      · rw [if_pos hm] at h₁
        cases h₁
      · have hm₂ : maxRank (validValues l₂) ≠ 0 := by
          rw [← maxRank_perm hvs]
          exact hm
        rw [if_neg hm] at h₁
        rw [if_neg hm₂] at h₂
        injection h₁ with h₁
        injection h₂ with h₂
        rw [← h₁, ← h₂]
        have hfeq : (fun p : String × Option ℚ => (p.1, p.2.map (pctOf (validValues l₁)))) =
            (fun p : String × Option ℚ => (p.1, p.2.map (pctOf (validValues l₂)))) := by
          funext p
          cases hp : p.2 with
          | none => rfl
          | some v => simp [hpct v]
        rw [hfeq]
        exact h.map _

/-- Witness for C9 at the two-entry mapping and its reversal. -/
theorem C9_permutation_invariance_witness :
    ([("A", some (1 : ℚ)), ("B", none)].Perm [("B", none), ("A", some (1 : ℚ))]) ∧
    ((∀ v : ℚ, pctOf (validValues [("A", some (1 : ℚ)), ("B", none)]) v =
        pctOf (validValues [("B", none), ("A", some (1 : ℚ))]) v) ∧
     (calculate_rs_percentile [("A", some (1 : ℚ)), ("B", none)] = .error () ↔
       calculate_rs_percentile [("B", none), ("A", some (1 : ℚ))] = .error ()) ∧
     (∀ out₁ out₂, calculate_rs_percentile [("A", some (1 : ℚ)), ("B", none)] = .ok out₁ →
       calculate_rs_percentile [("B", none), ("A", some (1 : ℚ))] = .ok out₂ →
       out₁.Perm out₂)) :=
  ⟨List.Perm.swap _ _ _,
    C9_permutation_invariance _ _ (List.Perm.swap _ _ _)⟩

/-- C7: for a retrievable ticker with at least 2 observations, the row
holds the current RS over the full pair and three lagged RS values
obtained by truncating the last 20, 60 and 120 observations off both
series and re-invoking relative_strength, each lag computed exactly when
the truncated target series still has positive length. -/
theorem C7_lagged_rs_truncation (t : String) (closes ref_closes : List ℚ)
    (h : 2 ≤ closes.length) :
    (buildRow t closes ref_closes).rs = relative_strength closes ref_closes ∧
    (buildRow t closes ref_closes).rs1m =
      (if 0 < (truncLast 20 closes).length then
        relative_strength (truncLast 20 closes) (truncLast 20 ref_closes) else none) ∧
    (buildRow t closes ref_closes).rs3m =
      (if 0 < (truncLast 60 closes).length then
        relative_strength (truncLast 60 closes) (truncLast 60 ref_closes) else none) ∧
    (buildRow t closes ref_closes).rs6m =
      (if 0 < (truncLast 120 closes).length then
        relative_strength (truncLast 120 closes) (truncLast 120 ref_closes) else none) := by
  unfold buildRow
  rw [if_neg (show ¬closes.length < 2 by omega)]
  refine ⟨rfl, ?_, ?_, ?_⟩
  · have hlen : (truncLast 20 closes).length = closes.length - 20 := by
      simp only [truncLast, List.length_take]
      omega
    by_cases hc : 20 < closes.length
    · rw [if_pos (show 0 < (truncLast 20 closes).length by omega)]
      show (if 20 < closes.length then _ else none) = _
      rw [if_pos hc]
      rfl
    · rw [if_neg (show ¬0 < (truncLast 20 closes).length by omega)]
      show (if 20 < closes.length then _ else none) = _
      rw [if_neg hc]
  · have hlen : (truncLast 60 closes).length = closes.length - 60 := by
      simp only [truncLast, List.length_take]
      omega
    by_cases hc : 60 < closes.length
    · rw [if_pos (show 0 < (truncLast 60 closes).length by omega)]
      show (if 60 < closes.length then _ else none) = _
      rw [if_pos hc]
      rfl
    · rw [if_neg (show ¬0 < (truncLast 60 closes).length by omega)]
      show (if 60 < closes.length then _ else none) = _
      rw [if_neg hc]
  · have hlen : (truncLast 120 closes).length = closes.length - 120 := by
      simp only [truncLast, List.length_take]
      omega
    by_cases hc : 120 < closes.length
    · rw [if_pos (show 0 < (truncLast 120 closes).length by omega)]
      show (if 120 < closes.length then _ else none) = _
      rw [if_pos hc]
      rfl
    · rw [if_neg (show ¬0 < (truncLast 120 closes).length by omega)]
      show (if 120 < closes.length then _ else none) = _
      rw [if_neg hc]

/-- Witness for C7 at the concrete two-observation series. -/
theorem C7_lagged_rs_truncation_witness :
    2 ≤ ([1, 2] : List ℚ).length ∧
    ((buildRow "A" [1, 2] [1, 1]).rs = relative_strength [1, 2] [1, 1] ∧
     (buildRow "A" [1, 2] [1, 1]).rs1m =
       (if 0 < (truncLast 20 [1, 2]).length then
         relative_strength (truncLast 20 [1, 2]) (truncLast 20 [1, 1]) else none) ∧
     (buildRow "A" [1, 2] [1, 1]).rs3m =
       (if 0 < (truncLast 60 [1, 2]).length then
         relative_strength (truncLast 60 [1, 2]) (truncLast 60 [1, 1]) else none) ∧
     (buildRow "A" [1, 2] [1, 1]).rs6m =
       (if 0 < (truncLast 120 [1, 2]).length then
         relative_strength (truncLast 120 [1, 2]) (truncLast 120 [1, 1]) else none)) :=
  ⟨by decide, C7_lagged_rs_truncation "A" [1, 2] [1, 1] (by decide)⟩

/-- A concrete price store exercising the pipeline: the benchmark SPY
and ticker E resolve, E with a single close, and every other ticker read
raises. -/
def storeC6 : String → Except String (List ℚ) := fun t =>
  if t = "SPY" then .ok (List.replicate 20 1)
  else if t = "E" then .ok [5]
  else .error ("read failed")

/-- C6: evaluation of the pipeline at a universe containing a ticker D
whose retrieval always raises and a ticker E with a single observation.
The per-ticker loop isolates both: each gets a row with all four RS
fields undefined, and the percentile step assigns no percentile. But the
IPO-flag pass then re-reads every ticker outside any try/except, D's
read raises again, and the run aborts instead of completing. -/
theorem C6_ipo_flag_rethrow :
    mainPipeline storeC6 ["SPY", "D", "E"] "SPY" = .error ("read failed") ∧
    processTicker storeC6 (List.replicate 20 1) "D" = ⟨"D", none, none, none, none⟩ ∧
    processTicker storeC6 (List.replicate 20 1) "E" = ⟨"E", none, none, none, none⟩ ∧
    calculate_rs_percentile [("D", (none : Option RSVal)), ("E", none)] =
      .ok [("D", none), ("E", none)] := by
  refine ⟨?_, rfl, rfl, rfl⟩
  set_option maxHeartbeats 1000000 in
  rfl

/-! Float-semantics model. The ℚ embedding above is exact for the
approved claims, whose interesting inputs involve no division by zero
inside quarters_perf. At zero close prices, however, the source's float
arithmetic produces infinities and NaN inside pct_change and cumprod:
a zero denominator gives a signed infinity, a 0/0 step gives NaN that
dropna removes, and 0 times infinity gives NaN. The model below carries
those values explicitly and re-embeds quarters_perf and strength with
full IEEE-754 zero/infinity/NaN behaviour. -/

/-- A double value as the source's arithmetic can produce it: a finite
number (kept exact as a rational), a signed infinity, or NaN. -/
inductive FloatVal where
  | fin : ℚ → FloatVal
  | posInf : FloatVal
  | negInf : FloatVal
  | nan : FloatVal
deriving DecidableEq

/-- IEEE-754 multiplication over the model (exact in the finite range):
NaN absorbs, zero times infinity is NaN, infinities multiply by sign. -/
def FloatVal.mul : FloatVal → FloatVal → FloatVal
  | .nan, _ => .nan
  | _, .nan => .nan
  | .fin a, .fin b => .fin (a * b)
  | .fin a, .posInf => if 0 < a then .posInf else if a < 0 then .negInf else .nan
  | .fin a, .negInf => if 0 < a then .negInf else if a < 0 then .posInf else .nan
  | .posInf, .fin b => if 0 < b then .posInf else if b < 0 then .negInf else .nan
  | .negInf, .fin b => if 0 < b then .negInf else if b < 0 then .posInf else .nan
  | .posInf, .posInf => .posInf
  | .posInf, .negInf => .negInf
  | .negInf, .posInf => .negInf
  | .negInf, .negInf => .posInf

/-- IEEE-754 addition over the model: NaN absorbs, opposite infinities
give NaN. -/
def FloatVal.add : FloatVal → FloatVal → FloatVal
  | .nan, _ => .nan
  | _, .nan => .nan
  | .fin a, .fin b => .fin (a + b)
  | .fin _, .posInf => .posInf
  | .posInf, .fin _ => .posInf
  | .fin _, .negInf => .negInf
  | .negInf, .fin _ => .negInf
  | .posInf, .posInf => .posInf
  | .negInf, .negInf => .negInf
  | .posInf, .negInf => .nan
  | .negInf, .posInf => .nan

/-- One pct_change step (b - a) / a in float arithmetic: division by a
positive zero denominator yields the sign of the numerator as an
infinity, and 0/0 yields NaN. -/
def pctF (a b : ℚ) : FloatVal :=
  if a = 0 then
    if b = 0 then .nan
    else if 0 < b then .posInf
    else .negInf
  else .fin ((b - a) / a)

/-- Embedding of pandas pct_change().dropna() with float semantics: one
step per consecutive pair, NaN steps (0/0) removed by dropna; infinite
steps are kept, exactly as isnan-based dropna keeps them. -/
def pct_changesF (l : List ℚ) : List FloatVal :=
  ((l.zip l.tail).map (fun p => pctF p.1 p.2)).filter (fun v => v ≠ FloatVal.nan)

/-- cumprod().iloc[-1]: the left fold of float multiplication, seeded
with 1 (exact, so it never changes a value). -/
def FloatVal.prodList (l : List FloatVal) : FloatVal :=
  l.foldl FloatVal.mul (.fin 1)

/-- The else-branch of quarters_perf in float semantics: NaN when the
dropna'd pct_change list is empty, otherwise the cumprod of (1 + step)
minus 1. -/
def compoundedReturnF (w : List ℚ) : FloatVal :=
  if pct_changesF w = [] then .nan
  else FloatVal.add
    (FloatVal.prodList ((pct_changesF w).map (fun p => FloatVal.add p (.fin 1))))
    (.fin (-1))

/-- quarters_perf (lines 19-27) with float semantics: the same trailing
window and length cases as the ℚ embedding, but the compounded product
carries infinities and NaN the way np.float64 does. -/
def quarters_perfF (closes : List ℚ) (n : ℕ) : FloatVal :=
  if (takeTrailing closes (min closes.length (n * 63))).length < 1 then .nan
  else if (takeTrailing closes (min closes.length (n * 63))).length = 1 then .fin 0
  else compoundedReturnF (takeTrailing closes (min closes.length (n * 63)))

/-- strength (lines 29-37) with float semantics: np.isnan filters only
NaN (infinite figures are kept as valid), the weight prefix is truncated
to the number of valid figures and renormalized, and the weighted sum is
Python's left-to-right sum starting from 0. -/
def strengthF (closes : List ℚ) : FloatVal :=
  let perfs := [quarters_perfF closes 1, quarters_perfF closes 2,
    quarters_perfF closes 3, quarters_perfF closes 4]
  let valid_perfs := perfs.filter (fun p => p ≠ FloatVal.nan)
  if valid_perfs = [] then .nan
  else
    let weights := ([0.4, 0.2, 0.2, 0.2] : List ℚ).take valid_perfs.length
    let total_weight := weights.sum
    let weights2 := if 0 < total_weight then weights.map (fun w => w / total_weight)
      else weights
    ((weights2.zip valid_perfs).map (fun p => FloatVal.mul (.fin p.1) p.2)).foldl
      FloatVal.add (.fin 0)

/-- Modelled from the spec: QuarterlyStrengthScorer as 4.2 words it, in
float semantics: pair the base weights with the four figures, drop the
pairs whose figure is undefined (NaN), renormalize the remaining pairs'
own weights to sum to 1, and return the weighted sum of the remaining
figures. -/
def strengthSpecF (closes : List ℚ) : FloatVal :=
  let pairs : List (ℚ × FloatVal) :=
    [(0.4, quarters_perfF closes 1), (0.2, quarters_perfF closes 2),
     (0.2, quarters_perfF closes 3), (0.2, quarters_perfF closes 4)]
  let remaining := pairs.filter (fun p => p.2 ≠ FloatVal.nan)
  if remaining = [] then .nan
  else
    let total := (remaining.map Prod.fst).sum
    ((remaining.map (fun p => FloatVal.mul (.fin (p.1 / total)) p.2)).foldl
      FloatVal.add (.fin 0))

lemma FloatVal.mul_nan_right (x : FloatVal) : FloatVal.mul x .nan = .nan := by
  cases x <;> rfl

lemma foldl_mul_nan (l : List FloatVal) : l.foldl FloatVal.mul .nan = .nan := by
  induction l with
  | nil => rfl
  | cons h t ih =>
    simp only [List.foldl_cons, FloatVal.mul]
    exact ih

lemma foldl_mul_map_fin (l : List ℚ) (x : ℚ) :
    (l.map FloatVal.fin).foldl FloatVal.mul (.fin x) = .fin (x * l.prod) := by
  induction l generalizing x with
  | nil => simp
  | cons h t ih =>
    simp only [List.map_cons, List.foldl_cons, FloatVal.mul, List.prod_cons, ih]
    ring_nf

lemma all_fin_exists_map {l : List FloatVal} (h : ∀ v ∈ l, ∃ q, v = .fin q) :
    ∃ l' : List ℚ, l = l'.map FloatVal.fin := by
  induction l with
  | nil => exact ⟨[], rfl⟩
  | cons a t ih =>
    obtain ⟨q, hq⟩ := h a (List.mem_cons_self _ _)
    obtain ⟨l', hl'⟩ := ih (fun v hv => h v (List.mem_cons_of_mem _ hv))
    exact ⟨q :: l', by rw [hq, hl']; rfl⟩

lemma foldl_mul_all_fin {l : List FloatVal} (h : ∀ v ∈ l, ∃ q, v = .fin q) (x : ℚ) :
    ∃ q, l.foldl FloatVal.mul (.fin x) = .fin q := by
  obtain ⟨l', rfl⟩ := all_fin_exists_map h
  exact ⟨x * l'.prod, foldl_mul_map_fin l' x⟩

lemma foldl_mul_zero_no_inf {l : List FloatVal} (h : ∀ v ∈ l, ∃ q, v = .fin q)
    (x : ℚ) (h0 : .fin 0 ∈ l) : l.foldl FloatVal.mul (.fin x) = .fin 0 := by
  obtain ⟨l', rfl⟩ := all_fin_exists_map h
  rw [foldl_mul_map_fin]
  have h0' : (0 : ℚ) ∈ l' := by
    obtain ⟨q, hq, hq0⟩ := List.mem_map.mp h0
    have : q = 0 := by injection hq0
    rwa [← this]
  rw [List.prod_eq_zero h0', mul_zero]

lemma FloatVal.mul_inf_fin {q : ℚ} (hq : q ≠ 0) {a : FloatVal}
    (ha : a = .posInf ∨ a = .negInf) :
    FloatVal.mul a (.fin q) = .posInf ∨ FloatVal.mul a (.fin q) = .negInf := by
  rcases lt_trichotomy q 0 with h | h | h
  · rcases ha with rfl | rfl
    · right
      simp only [FloatVal.mul]
      rw [if_neg (by linarith), if_pos h]
    · left
      simp only [FloatVal.mul]
      rw [if_neg (by linarith), if_pos h]
  · exact absurd h hq
  · rcases ha with rfl | rfl
    · left
      simp only [FloatVal.mul]
      rw [if_pos h]
    · right
      simp only [FloatVal.mul]
      rw [if_pos h]

lemma FloatVal.mul_fin_inf {x : ℚ} (hx : x ≠ 0) {b : FloatVal}
    (hb : b = .posInf ∨ b = .negInf) :
    FloatVal.mul (.fin x) b = .posInf ∨ FloatVal.mul (.fin x) b = .negInf := by
  rcases lt_trichotomy x 0 with h | h | h
  · rcases hb with rfl | rfl
    · right
      simp only [FloatVal.mul]
      rw [if_neg (by linarith), if_pos h]
    · left
      simp only [FloatVal.mul]
      rw [if_neg (by linarith), if_pos h]
  · exact absurd h hx
  · rcases hb with rfl | rfl
    · left
      simp only [FloatVal.mul]
      rw [if_pos h]
    · right
      simp only [FloatVal.mul]
      rw [if_pos h]

lemma FloatVal.mul_inf_inf {a b : FloatVal} (ha : a = .posInf ∨ a = .negInf)
    (hb : b = .posInf ∨ b = .negInf) :
    FloatVal.mul a b = .posInf ∨ FloatVal.mul a b = .negInf := by
  rcases ha with rfl | rfl <;> rcases hb with rfl | rfl <;> simp [FloatVal.mul]

lemma FloatVal.mul_inf_zero {a : FloatVal} (ha : a = .posInf ∨ a = .negInf) :
    FloatVal.mul a (.fin 0) = .nan := by
  rcases ha with rfl | rfl <;>
    · simp only [FloatVal.mul]
      rw [if_neg (by norm_num), if_neg (by norm_num)]

lemma foldl_mul_inf_zero {l : List FloatVal} {a : FloatVal}
    (ha : a = .posInf ∨ a = .negInf) (hnan : .nan ∉ l) (h0 : .fin 0 ∈ l) :
    l.foldl FloatVal.mul a = .nan := by
  induction l generalizing a with
  | nil => cases h0
  | cons h t ih =>
    simp only [List.foldl_cons]
    by_cases hh : h = .fin 0
    · subst hh
      rw [FloatVal.mul_inf_zero ha]
      exact foldl_mul_nan t
    · have h0t : .fin 0 ∈ t := by
        rcases List.mem_cons.mp h0 with hc | hc
        · exact absurd hc.symm hh
        · exact hc
      have hnant : .nan ∉ t := fun hc => hnan (List.mem_cons_of_mem _ hc)
      have hhnan : h ≠ .nan := fun hc => hnan (hc ▸ List.mem_cons_self _ _)
      refine ih ?_ hnant h0t
      cases h with
      | fin q =>
        have hq : q ≠ 0 := fun hc => hh (by rw [hc])
        exact FloatVal.mul_inf_fin hq ha
      | posInf => exact FloatVal.mul_inf_inf ha (Or.inl rfl)
      | negInf => exact FloatVal.mul_inf_inf ha (Or.inr rfl)
      | nan => exact absurd rfl hhnan

lemma foldl_mul_inf_no_zero {l : List FloatVal} {a : FloatVal}
    (ha : a = .posInf ∨ a = .negInf) (hnan : .nan ∉ l) (h0 : .fin 0 ∉ l) :
    l.foldl FloatVal.mul a = .posInf ∨ l.foldl FloatVal.mul a = .negInf := by
  induction l generalizing a with
  | nil => exact ha
  | cons h t ih =>
    simp only [List.foldl_cons]
    have h0t : .fin 0 ∉ t := fun hc => h0 (List.mem_cons_of_mem _ hc)
    have hnant : .nan ∉ t := fun hc => hnan (List.mem_cons_of_mem _ hc)
    refine ih ?_ hnant h0t
    cases h with
    | fin q =>
      have hq : q ≠ 0 := fun hc => h0 (by rw [← hc]; exact List.mem_cons_self _ _)
      exact FloatVal.mul_inf_fin hq ha
    | posInf => exact FloatVal.mul_inf_inf ha (Or.inl rfl)
    | negInf => exact FloatVal.mul_inf_inf ha (Or.inr rfl)
    | nan => exact absurd (List.mem_cons_self _ _) hnan

lemma foldl_mul_zero_inf {l : List FloatVal} (hnan : .nan ∉ l)
    (hi : .posInf ∈ l ∨ .negInf ∈ l) :
    l.foldl FloatVal.mul (.fin 0) = .nan := by
  induction l with
  | nil => rcases hi with hc | hc <;> cases hc
  | cons h t ih =>
    simp only [List.foldl_cons]
    have hnant : .nan ∉ t := fun hc => hnan (List.mem_cons_of_mem _ hc)
    cases h with
    | fin q =>
      have hinf : .posInf ∈ t ∨ .negInf ∈ t := by
        rcases hi with hc | hc
        · rcases List.mem_cons.mp hc with hc2 | hc2
          · cases hc2
          · exact Or.inl hc2
        · rcases List.mem_cons.mp hc with hc2 | hc2
          · cases hc2
          · exact Or.inr hc2
      simp only [FloatVal.mul, zero_mul]
      exact ih hnant hinf
    | posInf =>
      rw [show FloatVal.mul (.fin 0) .posInf = .nan by
        simp only [FloatVal.mul]
        rw [if_neg (by norm_num), if_neg (by norm_num)]]
      exact foldl_mul_nan t
    | negInf =>
      rw [show FloatVal.mul (.fin 0) .negInf = .nan by
        simp only [FloatVal.mul]
        rw [if_neg (by norm_num), if_neg (by norm_num)]]
      exact foldl_mul_nan t
    | nan => exact absurd (List.mem_cons_self _ _) hnan

lemma foldl_mul_fin_zero_inf {l : List FloatVal} (x : ℚ) (hx : x ≠ 0)
    (hnan : .nan ∉ l) (h0 : .fin 0 ∈ l)
    (hi : .posInf ∈ l ∨ .negInf ∈ l) :
    l.foldl FloatVal.mul (.fin x) = .nan := by
  induction l generalizing x with
  | nil => cases h0
  | cons h t ih =>
    simp only [List.foldl_cons]
    have hnant : .nan ∉ t := fun hc => hnan (List.mem_cons_of_mem _ hc)
    cases h with
    | fin q =>
      have hinf : .posInf ∈ t ∨ .negInf ∈ t := by
        rcases hi with hc | hc
        · rcases List.mem_cons.mp hc with hc2 | hc2
          · cases hc2
          · exact Or.inl hc2
        · rcases List.mem_cons.mp hc with hc2 | hc2
          · cases hc2
          · exact Or.inr hc2
      by_cases hq : q = 0
      · subst hq
        rw [show FloatVal.mul (.fin x) (.fin 0) = .fin 0 by
          simp [FloatVal.mul]]
        exact foldl_mul_zero_inf hnant hinf
      · have h0t : .fin 0 ∈ t := by
          rcases List.mem_cons.mp h0 with hc | hc
          · exact absurd (by injection hc.symm) hq
          · exact hc
        simp only [FloatVal.mul]
        exact ih (x * q) (mul_ne_zero hx hq) hnant h0t hinf
    | posInf =>
      have h0t : .fin 0 ∈ t := by
        rcases List.mem_cons.mp h0 with hc | hc
        · cases hc
        · exact hc
      have : FloatVal.mul (.fin x) .posInf = .posInf ∨
          FloatVal.mul (.fin x) .posInf = .negInf :=
        FloatVal.mul_fin_inf hx (Or.inl rfl)
      exact foldl_mul_inf_zero this hnant h0t
    | negInf =>
      have h0t : .fin 0 ∈ t := by
        rcases List.mem_cons.mp h0 with hc | hc
        · cases hc
        · exact hc
      have : FloatVal.mul (.fin x) .negInf = .posInf ∨
          FloatVal.mul (.fin x) .negInf = .negInf :=
        FloatVal.mul_fin_inf hx (Or.inr rfl)
      exact foldl_mul_inf_zero this hnant h0t
    | nan => exact absurd (List.mem_cons_self _ _) hnan

lemma foldl_mul_fin_inf_no_zero {l : List FloatVal} (x : ℚ) (hx : x ≠ 0)
    (hnan : .nan ∉ l) (h0 : .fin 0 ∉ l)
    (hi : .posInf ∈ l ∨ .negInf ∈ l) :
    l.foldl FloatVal.mul (.fin x) = .posInf ∨
      l.foldl FloatVal.mul (.fin x) = .negInf := by
  induction l generalizing x with
  | nil => rcases hi with hc | hc <;> cases hc
  | cons h t ih =>
    simp only [List.foldl_cons]
    have hnant : .nan ∉ t := fun hc => hnan (List.mem_cons_of_mem _ hc)
    have h0t : .fin 0 ∉ t := fun hc => h0 (List.mem_cons_of_mem _ hc)
    cases h with
    | fin q =>
      have hq : q ≠ 0 := fun hc => h0 (by rw [← hc]; exact List.mem_cons_self _ _)
      have hinf : .posInf ∈ t ∨ .negInf ∈ t := by
        rcases hi with hc | hc
        · rcases List.mem_cons.mp hc with hc2 | hc2
          · cases hc2
          · exact Or.inl hc2
        · rcases List.mem_cons.mp hc with hc2 | hc2
          · cases hc2
          · exact Or.inr hc2
      simp only [FloatVal.mul]
      exact ih (x * q) (mul_ne_zero hx hq) hnant h0t hinf
    | posInf =>
      exact foldl_mul_inf_no_zero (FloatVal.mul_fin_inf hx (Or.inl rfl)) hnant h0t
    | negInf =>
      exact foldl_mul_inf_no_zero (FloatVal.mul_fin_inf hx (Or.inr rfl)) hnant h0t
    | nan => exact absurd (List.mem_cons_self _ _) hnan

lemma foldl_add_not_nan {l : List FloatVal} (hnan : .nan ∉ l)
    (hmix : ¬(.posInf ∈ l ∧ .negInf ∈ l)) :
    ∀ a, a ≠ .nan → (a = .posInf → .negInf ∉ l) → (a = .negInf → .posInf ∉ l) →
      l.foldl FloatVal.add a ≠ .nan := by
  induction l with
  | nil => exact fun a ha _ _ => by simpa using ha
  | cons h t ih =>
    intro a ha hap han
    simp only [List.foldl_cons]
    have hnant : .nan ∉ t := fun hc => hnan (List.mem_cons_of_mem _ hc)
    have hmixt : ¬(.posInf ∈ t ∧ .negInf ∈ t) := fun hc =>
      hmix ⟨List.mem_cons_of_mem _ hc.1, List.mem_cons_of_mem _ hc.2⟩
    have hhnan : h ≠ .nan := fun hc => hnan (hc ▸ List.mem_cons_self _ _)
    refine ih hnant hmixt (FloatVal.add a h) ?_ ?_ ?_
    · cases a <;> cases h <;> simp_all [FloatVal.add]
    · intro hsum hc
      cases a <;> cases h <;> simp_all [FloatVal.add]
    · intro hsum hc
      cases a <;> cases h <;> simp_all [FloatVal.add]

lemma mem_pct_changesF_ne_nan {w : List ℚ} {v : FloatVal}
    (hv : v ∈ pct_changesF w) : v ≠ .nan := by
  have := (List.mem_filter.mp hv).2
  simpa using this

lemma pctF_eq_neg_one_iff {a b : ℚ} : pctF a b = .fin (-1) ↔ (a ≠ 0 ∧ b = 0) := by
  unfold pctF
  constructor
  · intro h
    by_cases ha : a = 0
    · rw [if_pos ha] at h
      by_cases hb : b = 0
      · rw [if_pos hb] at h
        cases h
      · rw [if_neg hb] at h
        split at h <;> cases h
    · rw [if_neg ha] at h
      refine ⟨ha, ?_⟩
      have hq : (b - a) / a = -1 := by injection h
      field_simp at hq
      linarith
  · rintro ⟨ha, rfl⟩
    rw [if_neg ha]
    congr 1
    field_simp
  
lemma pctF_eq_nan_iff {a b : ℚ} : pctF a b = .nan ↔ (a = 0 ∧ b = 0) := by
  unfold pctF
  constructor
  · intro h
    by_cases ha : a = 0
    · rw [if_pos ha] at h
      by_cases hb : b = 0
      · exact ⟨ha, hb⟩
      · rw [if_neg hb] at h
        split at h <;> cases h
    · rw [if_neg ha] at h
      cases h
  · rintro ⟨rfl, rfl⟩
    rfl

lemma pctF_inf_cases {a b : ℚ} (h : pctF a b = .posInf ∨ pctF a b = .negInf) :
    a = 0 ∧ b ≠ 0 := by
  unfold pctF at h
  by_cases ha : a = 0
  · rw [if_pos ha] at h
    by_cases hb : b = 0
    · rw [if_pos hb] at h
      rcases h with h | h <;> cases h
    · exact ⟨ha, hb⟩
  · rw [if_neg ha] at h
    rcases h with h | h <;> cases h

lemma zip_tail_drop (l : List ℚ) (j : ℕ) :
    (l.drop j).zip (l.drop j).tail = (l.zip l.tail).drop j := by
  induction j generalizing l with
  | zero => rfl
  | succ j ih =>
    cases l with
    | nil => rfl
    | cons a t =>
      cases t with
      | nil =>
        simp [List.zip]
      | cons b t2 =>
        show ((b :: t2).drop j).zip ((b :: t2).drop j).tail =
          ((a, b) :: (b :: t2).zip t2).drop (j + 1)
        rw [List.drop_succ_cons]
        exact ih (b :: t2)

lemma pct_changesF_drop_subset {w : List ℚ} {j : ℕ} {v : FloatVal}
    (hv : v ∈ pct_changesF (w.drop j)) : v ∈ pct_changesF w := by
  unfold pct_changesF at hv ⊢
  rw [List.mem_filter] at hv ⊢
  refine ⟨?_, hv.2⟩
  have := hv.1
  rw [zip_tail_drop] at this
  obtain ⟨p, hp, hpv⟩ := List.mem_map.mp this
  exact List.mem_map.mpr ⟨p, List.mem_of_mem_drop hp, hpv⟩

lemma pct_changesF_eq_nil_iff {w : List ℚ} :
    pct_changesF w = [] ↔ ∀ p ∈ w.zip w.tail, p.1 = 0 ∧ p.2 = 0 := by
  unfold pct_changesF
  rw [List.filter_eq_nil_iff]
  constructor
  · intro h p hp
    have := h (pctF p.1 p.2) (List.mem_map.mpr ⟨p, hp, rfl⟩)
    have h2 : pctF p.1 p.2 = FloatVal.nan := by simpa using this
    exact pctF_eq_nan_iff.mp h2
  · intro h v hv
    obtain ⟨p, hp, rfl⟩ := List.mem_map.mp hv
    have := h p hp
    simpa using pctF_eq_nan_iff.mpr this

lemma pct_changesF_cons (a b : ℚ) (t : List ℚ) :
    pct_changesF (a :: b :: t) =
      (if pctF a b = .nan then [] else [pctF a b]) ++ pct_changesF (b :: t) := by
  by_cases h : pctF a b = .nan
  · simp [pct_changesF, List.zip_cons_cons, List.filter_cons, h]
  · simp [pct_changesF, List.zip_cons_cons, List.filter_cons, h]

lemma zeros_of_pairs : ∀ (w : List ℚ), 2 ≤ w.length →
    (∀ p ∈ w.zip w.tail, p.1 = 0 ∧ p.2 = 0) → ∀ c ∈ w, c = 0 := by
  intro w
  induction w with
  | nil => intro h; simp at h
  | cons a t ih =>
    intro hlen hp c hc
    cases t with
    | nil => simp at hlen
    | cons b t2 =>
      have hab := hp (a, b) (by simp [List.zip_cons_cons])
      rcases List.mem_cons.mp hc with rfl | hc2
      · exact hab.1
      · cases t2 with
        | nil =>
          have : c = b := by simpa using hc2
          rw [this]
          exact hab.2
        | cons d t3 =>
          refine ih (by simp) ?_ c hc2
          intro p hpm
          exact hp p (by
            rw [show (a :: b :: d :: t3).zip (a :: b :: d :: t3).tail =
              (a, b) :: (b :: d :: t3).zip (b :: d :: t3).tail from rfl]
            exact List.mem_cons_of_mem _ hpm)

lemma pct_changesF_of_all_zero {w : List ℚ} (h : ∀ c ∈ w, c = 0) :
    pct_changesF w = [] := by
  rw [pct_changesF_eq_nil_iff]
  intro p hp
  have hmem := List.of_mem_zip hp
  exact ⟨h p.1 hmem.1, h p.2 (List.mem_of_mem_tail hmem.2)⟩

lemma crash_of_append_zeros : ∀ (extra w1 : List ℚ), (∀ c ∈ w1, c = 0) → w1 ≠ [] →
    (∃ c ∈ extra ++ w1, c ≠ 0) → FloatVal.fin (-1) ∈ pct_changesF (extra ++ w1) := by
  intro extra
  induction extra with
  | nil =>
    intro w1 hz hne hex
    obtain ⟨c, hc, hc0⟩ := hex
    rw [List.nil_append] at hc
    exact absurd (hz c hc) hc0
  | cons a rest ih =>
    intro w1 hz hne hex
    have hrne : rest ++ w1 ≠ [] := fun hc => hne (List.append_eq_nil.mp hc).2
    cases hr : rest ++ w1 with
    | nil => exact absurd hr hrne
    | cons b t2 =>
      have hshape : a :: rest ++ w1 = a :: b :: t2 := by rw [List.cons_append, hr]
      rw [hshape, pct_changesF_cons]
      by_cases hre : ∃ c ∈ rest ++ w1, c ≠ 0
      · have := ih w1 hz hne hre
        rw [hr] at this
        exact List.mem_append_right _ this
      · push_neg at hre
        have hb : b = 0 := hre b (by rw [hr]; exact List.mem_cons_self _ _)
        obtain ⟨c, hc, hc0⟩ := hex
        have hca : c = a := by
          rcases List.mem_cons.mp (by rwa [List.cons_append] at hc) with rfl | hc2
          · rfl
          · exact absurd (hre c hc2) (by simpa using hc0)
        have ha0 : a ≠ 0 := hca ▸ hc0
        have hpv : pctF a b = .fin (-1) := pctF_eq_neg_one_iff.mpr ⟨ha0, hb⟩
        rw [if_neg (by rw [hpv]; intro hcc; cases hcc)]
        rw [hpv]
        exact List.mem_append_left _ (List.mem_cons_self _ _)

lemma canonical_of_no_crash : ∀ {w : List ℚ}, FloatVal.fin (-1) ∉ pct_changesF w →
    ∃ k v, w = List.replicate k 0 ++ v ∧ ∀ c ∈ v, c ≠ 0 := by
  intro w
  induction w with
  | nil => exact fun _ => ⟨0, [], rfl, by simp⟩
  | cons a t ih =>
    intro h
    have ht : FloatVal.fin (-1) ∉ pct_changesF t := by
      intro hc
      apply h
      cases t with
      | nil => cases hc
      | cons b t2 =>
        rw [pct_changesF_cons]
        exact List.mem_append_right _ hc
    obtain ⟨k', v', hv, hvz⟩ := ih ht
    by_cases ha : a = 0
    · subst ha
      exact ⟨k' + 1, v', by rw [List.replicate_succ, List.cons_append, hv], hvz⟩
    · refine ⟨0, a :: v', ?_, ?_⟩
      · have hk0 : k' = 0 := by
          by_contra hk
          cases k' with
          | zero => exact hk rfl
          | succ m =>
            apply h
            have hts : t = 0 :: (List.replicate m 0 ++ v') := by
              rw [hv, List.replicate_succ, List.cons_append]
            rw [hts, pct_changesF_cons]
            have hpv : pctF a 0 = .fin (-1) := pctF_eq_neg_one_iff.mpr ⟨ha, rfl⟩
            rw [if_neg (by rw [hpv]; intro hcc; cases hcc), hpv]
            exact List.mem_append_left _ (List.mem_cons_self _ _)
        rw [hk0] at hv
        simp only [List.replicate, List.nil_append] at hv ⊢
        rw [hv]
      · intro c hc
        rcases List.mem_cons.mp hc with rfl | hc2
        · exact ha
        · exact hvz c hc2

lemma pct_changesF_replicate_zero_append : ∀ (k : ℕ), 1 ≤ k → ∀ (c : ℚ), c ≠ 0 →
    ∀ (v' : List ℚ), pct_changesF (List.replicate k 0 ++ c :: v') =
      pctF 0 c :: pct_changesF (c :: v') := by
  intro k
  induction k with
  | zero => omega
  | succ m ih =>
    intro _ c hc v'
    cases m with
    | zero =>
      rw [show List.replicate 1 (0 : ℚ) ++ c :: v' = 0 :: c :: v' from rfl]
      rw [pct_changesF_cons]
      have hnn : pctF 0 c ≠ .nan := by
        intro hcc
        exact hc (pctF_eq_nan_iff.mp hcc).2
      rw [if_neg hnn]
      rfl
    | succ m2 =>
      rw [show List.replicate (m2 + 1 + 1) (0 : ℚ) ++ c :: v' =
        0 :: (List.replicate (m2 + 1) 0 ++ c :: v') by
          rw [List.replicate_succ, List.cons_append]]
      have hshape : List.replicate (m2 + 1) (0 : ℚ) ++ c :: v' =
          0 :: (List.replicate m2 0 ++ c :: v') := by
        rw [List.replicate_succ, List.cons_append]
      rw [hshape, pct_changesF_cons]
      rw [if_pos (by rw [show pctF (0 : ℚ) 0 = .nan from rfl])]
      rw [List.nil_append, ← hshape]
      exact ih (by omega) c hc v'

lemma pct_changesF_all_nonzero {w : List ℚ} (h : ∀ c ∈ w, c ≠ 0) :
    pct_changesF w = (pct_changes w).map FloatVal.fin := by
  unfold pct_changesF pct_changes
  have hstep : ∀ p ∈ w.zip w.tail, pctF p.1 p.2 = FloatVal.fin ((p.2 - p.1) / p.1) := by
    intro p hp
    have := (List.of_mem_zip hp).1
    unfold pctF
    rw [if_neg (h p.1 this)]
  rw [List.map_congr_left hstep]
  rw [List.filter_eq_self.mpr]
  · rw [List.map_map]
    rfl
  · intro v hv
    obtain ⟨p, _, rfl⟩ := List.mem_map.mp hv
    simp

lemma add_one_ne_nan {v : FloatVal} (h : v ≠ .nan) : FloatVal.add v (.fin 1) ≠ .nan := by
  cases v <;> simp_all [FloatVal.add]

lemma add_one_eq_zero_iff {v : FloatVal} :
    FloatVal.add v (.fin 1) = .fin 0 ↔ v = .fin (-1) := by
  cases v with
  | fin q =>
    simp only [FloatVal.add, FloatVal.fin.injEq]
    constructor
    · intro h
      linarith
    · intro h
      linarith
  | posInf => simp [FloatVal.add]
  | negInf => simp [FloatVal.add]
  | nan => simp [FloatVal.add]

lemma add_one_eq_posInf_iff {v : FloatVal} :
    FloatVal.add v (.fin 1) = .posInf ↔ v = .posInf := by
  cases v <;> simp [FloatVal.add]

lemma add_one_eq_negInf_iff {v : FloatVal} :
    FloatVal.add v (.fin 1) = .negInf ↔ v = .negInf := by
  cases v <;> simp [FloatVal.add]

lemma compoundedReturnF_nan_of_crash_inf {w : List ℚ}
    (hcr : FloatVal.fin (-1) ∈ pct_changesF w)
    (hinf : FloatVal.posInf ∈ pct_changesF w ∨ FloatVal.negInf ∈ pct_changesF w) :
    compoundedReturnF w = .nan := by
  unfold compoundedReturnF
  rw [if_neg (List.ne_nil_of_mem hcr)]
  have hM : ((pct_changesF w).map (fun p => FloatVal.add p (.fin 1))).foldl
      FloatVal.mul (.fin 1) = .nan := by
    apply foldl_mul_fin_zero_inf 1 one_ne_zero
    · intro hc
      obtain ⟨u, hu, huv⟩ := List.mem_map.mp hc
      exact add_one_ne_nan (mem_pct_changesF_ne_nan hu) huv
    · exact List.mem_map.mpr ⟨.fin (-1), hcr, add_one_eq_zero_iff.mpr rfl⟩
    · rcases hinf with hc | hc
      · exact Or.inl (List.mem_map.mpr ⟨.posInf, hc, add_one_eq_posInf_iff.mpr rfl⟩)
      · exact Or.inr (List.mem_map.mpr ⟨.negInf, hc, add_one_eq_negInf_iff.mpr rfl⟩)
  rw [show FloatVal.prodList ((pct_changesF w).map (fun p => FloatVal.add p (.fin 1))) =
    ((pct_changesF w).map (fun p => FloatVal.add p (.fin 1))).foldl FloatVal.mul (.fin 1)
    from rfl, hM]
  rfl

lemma compoundedReturnF_neg_one_of_crash {w : List ℚ}
    (hcr : FloatVal.fin (-1) ∈ pct_changesF w)
    (hp : FloatVal.posInf ∉ pct_changesF w) (hn : FloatVal.negInf ∉ pct_changesF w) :
    compoundedReturnF w = .fin (-1) := by
  unfold compoundedReturnF
  rw [if_neg (List.ne_nil_of_mem hcr)]
  have hfin : ∀ v ∈ (pct_changesF w).map (fun p => FloatVal.add p (.fin 1)),
      ∃ q, v = .fin q := by
    intro v hv
    obtain ⟨u, hu, huv⟩ := List.mem_map.mp hv
    cases u with
    | fin q => exact ⟨q + 1, by rw [← huv]; rfl⟩
    | posInf => exact absurd hu hp
    | negInf => exact absurd hu hn
    | nan => exact absurd rfl (mem_pct_changesF_ne_nan hu)
  have hM := foldl_mul_zero_no_inf hfin 1
    (List.mem_map.mpr ⟨.fin (-1), hcr, add_one_eq_zero_iff.mpr rfl⟩)
  rw [show FloatVal.prodList ((pct_changesF w).map (fun p => FloatVal.add p (.fin 1))) =
    ((pct_changesF w).map (fun p => FloatVal.add p (.fin 1))).foldl FloatVal.mul (.fin 1)
    from rfl, hM]
  show FloatVal.fin (0 + -1) = FloatVal.fin (-1)
  norm_num

lemma compoundedReturnF_inf_of_inf_no_crash {w : List ℚ}
    (hcr : FloatVal.fin (-1) ∉ pct_changesF w)
    (hinf : FloatVal.posInf ∈ pct_changesF w ∨ FloatVal.negInf ∈ pct_changesF w) :
    compoundedReturnF w = .posInf ∨ compoundedReturnF w = .negInf := by
  unfold compoundedReturnF
  have hne : pct_changesF w ≠ [] := by
    rcases hinf with hc | hc <;> exact List.ne_nil_of_mem hc
  rw [if_neg hne]
  have hM := foldl_mul_fin_inf_no_zero 1 one_ne_zero
    (l := (pct_changesF w).map (fun p => FloatVal.add p (.fin 1)))
    (by
      intro hc
      obtain ⟨u, hu, huv⟩ := List.mem_map.mp hc
      exact add_one_ne_nan (mem_pct_changesF_ne_nan hu) huv)
    (by
      intro hc
      obtain ⟨u, hu, huv⟩ := List.mem_map.mp hc
      exact hcr (add_one_eq_zero_iff.mp huv ▸ hu))
    (by
      rcases hinf with hc | hc
      · exact Or.inl (List.mem_map.mpr ⟨.posInf, hc, add_one_eq_posInf_iff.mpr rfl⟩)
      · exact Or.inr (List.mem_map.mpr ⟨.negInf, hc, add_one_eq_negInf_iff.mpr rfl⟩))
  rcases hM with hM | hM <;>
    rw [show FloatVal.prodList ((pct_changesF w).map (fun p => FloatVal.add p (.fin 1))) =
      ((pct_changesF w).map (fun p => FloatVal.add p (.fin 1))).foldl FloatVal.mul (.fin 1)
      from rfl, hM]
  · exact Or.inl rfl
  · exact Or.inr rfl

lemma compoundedReturnF_fin_of_no_inf {w : List ℚ}
    (hp : FloatVal.posInf ∉ pct_changesF w) (hn : FloatVal.negInf ∉ pct_changesF w)
    (hne : pct_changesF w ≠ []) :
    ∃ q, compoundedReturnF w = .fin q := by
  unfold compoundedReturnF
  rw [if_neg hne]
  have hfin : ∀ v ∈ (pct_changesF w).map (fun p => FloatVal.add p (.fin 1)),
      ∃ q, v = .fin q := by
    intro v hv
    obtain ⟨u, hu, huv⟩ := List.mem_map.mp hv
    cases u with
    | fin q => exact ⟨q + 1, by rw [← huv]; rfl⟩
    | posInf => exact absurd hu hp
    | negInf => exact absurd hu hn
    | nan => exact absurd rfl (mem_pct_changesF_ne_nan hu)
  obtain ⟨q, hq⟩ := foldl_mul_all_fin hfin 1
  rw [show FloatVal.prodList ((pct_changesF w).map (fun p => FloatVal.add p (.fin 1))) =
    ((pct_changesF w).map (fun p => FloatVal.add p (.fin 1))).foldl FloatVal.mul (.fin 1)
    from rfl, hq]
  exact ⟨q + -1, rfl⟩

lemma compoundedReturnF_nan_cases {w : List ℚ} (h : compoundedReturnF w = .nan) :
    pct_changesF w = [] ∨ (FloatVal.fin (-1) ∈ pct_changesF w ∧
      (FloatVal.posInf ∈ pct_changesF w ∨ FloatVal.negInf ∈ pct_changesF w)) := by
  by_cases hne : pct_changesF w = []
  · exact Or.inl hne
  by_cases hcr : FloatVal.fin (-1) ∈ pct_changesF w
  · by_cases hinf : FloatVal.posInf ∈ pct_changesF w ∨ FloatVal.negInf ∈ pct_changesF w
    · exact Or.inr ⟨hcr, hinf⟩
    · push_neg at hinf
      have := compoundedReturnF_neg_one_of_crash hcr hinf.1 hinf.2
      rw [this] at h
      cases h
  · by_cases hinf : FloatVal.posInf ∈ pct_changesF w ∨ FloatVal.negInf ∈ pct_changesF w
    · rcases compoundedReturnF_inf_of_inf_no_crash hcr hinf with hc | hc <;>
        · rw [hc] at h
          cases h
    · push_neg at hinf
      obtain ⟨q, hq⟩ := compoundedReturnF_fin_of_no_inf hinf.1 hinf.2 hne
      rw [hq] at h
      cases h

lemma compoundedReturnF_inf_cases {w : List ℚ}
    (h : compoundedReturnF w = .posInf ∨ compoundedReturnF w = .negInf) :
    FloatVal.fin (-1) ∉ pct_changesF w ∧
      (FloatVal.posInf ∈ pct_changesF w ∨ FloatVal.negInf ∈ pct_changesF w) := by
  by_cases hne : pct_changesF w = []
  · exfalso
    have : compoundedReturnF w = .nan := by
      unfold compoundedReturnF
      rw [if_pos hne]
    rcases h with hc | hc <;> (rw [this] at hc; cases hc)
  by_cases hinf : FloatVal.posInf ∈ pct_changesF w ∨ FloatVal.negInf ∈ pct_changesF w
  · refine ⟨?_, hinf⟩
    intro hcr
    have := compoundedReturnF_nan_of_crash_inf hcr hinf
    rcases h with hc | hc <;> (rw [this] at hc; cases hc)
  · exfalso
    push_neg at hinf
    obtain ⟨q, hq⟩ := compoundedReturnF_fin_of_no_inf hinf.1 hinf.2 hne
    rcases h with hc | hc <;> (rw [hq] at hc; cases hc)

lemma compoundedReturnF_congr {w1 w2 : List ℚ}
    (h : pct_changesF w1 = pct_changesF w2) :
    compoundedReturnF w1 = compoundedReturnF w2 := by
  unfold compoundedReturnF
  rw [h]

lemma quarters_perfF_of_two_le {closes : List ℚ} {n : ℕ} (h1 : 1 ≤ n)
    (h2 : 2 ≤ (trailingWindow closes n).length) :
    quarters_perfF closes n = compoundedReturnF (trailingWindow closes n) := by
  unfold quarters_perfF
  rw [takeTrailing_min_eq closes n h1]
  rw [if_neg (by omega), if_neg (by omega)]

lemma trailingWindow_two_le {closes : List ℚ} {n : ℕ} (h1 : 1 ≤ n)
    (hlen : 2 ≤ closes.length) : 2 ≤ (trailingWindow closes n).length := by
  rw [trailingWindow_length]
  have : 63 ≤ n * 63 := by omega
  omega

lemma trailingWindow_suffix (closes : List ℚ) {n m : ℕ} (hnm : n ≤ m) :
    trailingWindow closes n = (trailingWindow closes m).drop
      ((closes.length - min closes.length (n * 63)) -
       (closes.length - min closes.length (m * 63))) := by
  unfold trailingWindow
  rw [List.drop_drop]
  congr 1
  have h63 : n * 63 ≤ m * 63 := by
    exact Nat.mul_le_mul_right 63 hnm
  omega

lemma pctF_window_mono {closes : List ℚ} {n m : ℕ} (hnm : n ≤ m) {v : FloatVal}
    (hv : v ∈ pct_changesF (trailingWindow closes n)) :
    v ∈ pct_changesF (trailingWindow closes m) := by
  rw [trailingWindow_suffix closes hnm] at hv
  exact pct_changesF_drop_subset hv

lemma trailingWindow_mem_mono {closes : List ℚ} {n m : ℕ} (hnm : n ≤ m) {c : ℚ}
    (hc : c ∈ trailingWindow closes n) : c ∈ trailingWindow closes m := by
  rw [trailingWindow_suffix closes hnm] at hc
  exact List.mem_of_mem_drop hc

lemma qpF_nan_up {closes : List ℚ} (hlen : 2 ≤ closes.length) {n m : ℕ}
    (h1 : 1 ≤ n) (hnm : n ≤ m) (hn : quarters_perfF closes n = .nan) :
    quarters_perfF closes m = .nan ∨ quarters_perfF closes m = .fin (-1) := by
  have h1m : 1 ≤ m := le_trans h1 hnm
  have hwn := trailingWindow_two_le h1 hlen
  have hwm := trailingWindow_two_le h1m hlen
  rw [quarters_perfF_of_two_le h1 hwn] at hn
  rw [quarters_perfF_of_two_le h1m hwm]
  rcases compoundedReturnF_nan_cases hn with hemp | ⟨hcr, hinf⟩
  · have hz : ∀ c ∈ trailingWindow closes n, c = 0 :=
      zeros_of_pairs _ hwn (pct_changesF_eq_nil_iff.mp hemp)
    by_cases hemp2 : pct_changesF (trailingWindow closes m) = []
    · left
      unfold compoundedReturnF
      rw [if_pos hemp2]
    · have hex : ∃ c ∈ trailingWindow closes m, c ≠ 0 := by
        by_contra hall
        push_neg at hall
        exact hemp2 (pct_changesF_of_all_zero hall)
      have hsplit : trailingWindow closes m =
          (trailingWindow closes m).take
            ((closes.length - min closes.length (n * 63)) -
             (closes.length - min closes.length (m * 63))) ++
          trailingWindow closes n := by
        rw [trailingWindow_suffix closes hnm]
        rw [List.take_append_drop]
      have hwn_ne : trailingWindow closes n ≠ [] := by
        intro hc
        rw [hc] at hwn
        simp at hwn
      have hcrm : FloatVal.fin (-1) ∈ pct_changesF (trailingWindow closes m) := by
        rw [hsplit]
        exact crash_of_append_zeros _ _ hz hwn_ne (by rw [← hsplit]; exact hex)
      by_cases hinfm : FloatVal.posInf ∈ pct_changesF (trailingWindow closes m) ∨
          FloatVal.negInf ∈ pct_changesF (trailingWindow closes m)
      · left
        exact compoundedReturnF_nan_of_crash_inf hcrm hinfm
      · push_neg at hinfm
        right
        exact compoundedReturnF_neg_one_of_crash hcrm hinfm.1 hinfm.2
  · left
    exact compoundedReturnF_nan_of_crash_inf (pctF_window_mono hnm hcr)
      (hinf.imp (pctF_window_mono hnm) (pctF_window_mono hnm))

lemma qpF_nan_mono {closes : List ℚ} (hlen : 2 ≤ closes.length) {n m : ℕ}
    (h1 : 1 ≤ n) (hnm : n ≤ m) (hq1 : quarters_perfF closes 1 ≠ .nan)
    (hn : quarters_perfF closes n = .nan) : quarters_perfF closes m = .nan := by
  have h1m : 1 ≤ m := le_trans h1 hnm
  have hwn := trailingWindow_two_le h1 hlen
  have hwm := trailingWindow_two_le h1m hlen
  have hw1 := trailingWindow_two_le (le_refl 1) hlen
  rw [quarters_perfF_of_two_le h1 hwn] at hn
  rw [quarters_perfF_of_two_le h1m hwm]
  rcases compoundedReturnF_nan_cases hn with hemp | ⟨hcr, hinf⟩
  · exfalso
    apply hq1
    have hz : ∀ c ∈ trailingWindow closes n, c = 0 :=
      zeros_of_pairs _ hwn (pct_changesF_eq_nil_iff.mp hemp)
    have hz1 : ∀ c ∈ trailingWindow closes 1, c = 0 := fun c hc =>
      hz c (trailingWindow_mem_mono h1 hc)
    rw [quarters_perfF_of_two_le (le_refl 1) hw1]
    unfold compoundedReturnF
    rw [if_pos (pct_changesF_of_all_zero hz1)]
  · exact compoundedReturnF_nan_of_crash_inf (pctF_window_mono hnm hcr)
      (hinf.imp (pctF_window_mono hnm) (pctF_window_mono hnm))

lemma no_inf_of_all_nonzero {w : List ℚ} (h : ∀ c ∈ w, c ≠ 0) :
    FloatVal.posInf ∉ pct_changesF w ∧ FloatVal.negInf ∉ pct_changesF w := by
  rw [pct_changesF_all_nonzero h]
  constructor <;>
    · intro hc
      obtain ⟨q, _, hq⟩ := List.mem_map.mp hc
      cases hq

lemma qpF_inf_eq {closes : List ℚ} (hlen : 2 ≤ closes.length) {n m : ℕ}
    (h1 : 1 ≤ n) (hnm : n ≤ m)
    (hq : quarters_perfF closes n = .posInf ∨ quarters_perfF closes n = .negInf)
    (hm : quarters_perfF closes m ≠ .nan) :
    quarters_perfF closes m = quarters_perfF closes n := by
  have h1m : 1 ≤ m := le_trans h1 hnm
  have hwn := trailingWindow_two_le h1 hlen
  have hwm := trailingWindow_two_le h1m hlen
  rw [quarters_perfF_of_two_le h1 hwn] at hq ⊢
  rw [quarters_perfF_of_two_le h1m hwm] at hm ⊢
  obtain ⟨hcrn, hinfn⟩ := compoundedReturnF_inf_cases hq
  have hinfm : FloatVal.posInf ∈ pct_changesF (trailingWindow closes m) ∨
      FloatVal.negInf ∈ pct_changesF (trailingWindow closes m) :=
    hinfn.imp (pctF_window_mono hnm) (pctF_window_mono hnm)
  have hcrm : FloatVal.fin (-1) ∉ pct_changesF (trailingWindow closes m) := by
    intro hc
    exact hm (compoundedReturnF_nan_of_crash_inf hc hinfm)
  obtain ⟨k, v, hwmv, hvz⟩ := canonical_of_no_crash hcrm
  have hvne : v ≠ [] := by
    intro hc
    rw [hc, List.append_nil] at hwmv
    have : ∀ c ∈ trailingWindow closes m, c = 0 := by
      intro c hcm
      rw [hwmv] at hcm
      exact List.eq_of_mem_replicate hcm
    rcases hinfm with h2 | h2 <;>
      · rw [pct_changesF_of_all_zero this] at h2
        cases h2
  have hk1 : 1 ≤ k := by
    by_contra hk
    have hk0 : k = 0 := by omega
    rw [hk0] at hwmv
    simp only [List.replicate, List.nil_append] at hwmv
    obtain ⟨hp, hn2⟩ := no_inf_of_all_nonzero (w := trailingWindow closes m)
      (by rw [hwmv]; exact hvz)
    rcases hinfm with h2 | h2
    · exact hp h2
    · exact hn2 h2
  obtain ⟨c, v', rfl⟩ : ∃ c v', v = c :: v' := by
    cases v with
    | nil => exact absurd rfl hvne
    | cons c v' => exact ⟨c, v', rfl⟩
  have hc0 : c ≠ 0 := hvz c (List.mem_cons_self _ _)
  set j := (closes.length - min closes.length (n * 63)) -
    (closes.length - min closes.length (m * 63)) with hj
  have hwnd : trailingWindow closes n = (trailingWindow closes m).drop j :=
    trailingWindow_suffix closes hnm
  by_cases hjk : k ≤ j
  · exfalso
    have hwnv : trailingWindow closes n = (c :: v').drop (j - k) := by
      rw [hwnd, hwmv, List.drop_append_eq_append_drop]
      simp [List.drop_replicate, Nat.sub_eq_zero_of_le hjk, List.length_replicate]
    have hnz : ∀ x ∈ trailingWindow closes n, x ≠ 0 := by
      intro x hx
      rw [hwnv] at hx
      exact hvz x (List.mem_of_mem_drop hx)
    obtain ⟨hp, hn2⟩ := no_inf_of_all_nonzero hnz
    rcases hinfn with h2 | h2
    · exact hp h2
    · exact hn2 h2
  · have hwn_eq : trailingWindow closes n =
        List.replicate (k - j) 0 ++ c :: v' := by
      rw [hwnd, hwmv, List.drop_append_eq_append_drop]
      rw [List.drop_replicate, List.length_replicate,
        Nat.sub_eq_zero_of_le (le_of_lt (not_le.mp hjk)), List.drop_zero]
    have hPn : pct_changesF (trailingWindow closes n) =
        pctF 0 c :: pct_changesF (c :: v') := by
      rw [hwn_eq]
      exact pct_changesF_replicate_zero_append (k - j) (by omega) c hc0 v'
    have hPm : pct_changesF (trailingWindow closes m) =
        pctF 0 c :: pct_changesF (c :: v') := by
      rw [hwmv]
      exact pct_changesF_replicate_zero_append k hk1 c hc0 v'
    exact compoundedReturnF_congr (hPm.trans hPn.symm)

lemma FloatVal.mul_fin_ne_nan {x : ℚ} (hx : x ≠ 0) {v : FloatVal} (hv : v ≠ .nan) :
    FloatVal.mul (.fin x) v ≠ .nan := by
  cases v with
  | fin q => simp [FloatVal.mul]
  | posInf =>
    rcases FloatVal.mul_fin_inf hx (b := .posInf) (Or.inl rfl) with h | h <;>
      (rw [h]; intro hc; cases hc)
  | negInf =>
    rcases FloatVal.mul_fin_inf hx (b := .negInf) (Or.inr rfl) with h | h <;>
      (rw [h]; intro hc; cases hc)
  | nan => exact absurd rfl hv

lemma FloatVal.mul_pos_posInf_iff {x : ℚ} (hx : 0 < x) {v : FloatVal} :
    FloatVal.mul (.fin x) v = .posInf ↔ v = .posInf := by
  cases v <;> simp [FloatVal.mul, hx]

lemma FloatVal.mul_pos_negInf_iff {x : ℚ} (hx : 0 < x) {v : FloatVal} :
    FloatVal.mul (.fin x) v = .negInf ↔ v = .negInf := by
  cases v <;> simp [FloatVal.mul, hx]

lemma weighted_foldl_ne_nan {ws : List ℚ} {vals : List FloatVal}
    (hws : ∀ w ∈ ws, 0 < w) (hnan : FloatVal.nan ∉ vals)
    (hmix : ¬(FloatVal.posInf ∈ vals ∧ FloatVal.negInf ∈ vals)) :
    ((ws.zip vals).map (fun p => FloatVal.mul (.fin p.1) p.2)).foldl
      FloatVal.add (.fin 0) ≠ .nan := by
  apply foldl_add_not_nan
  · intro hc
    obtain ⟨p, hp, hpv⟩ := List.mem_map.mp hc
    have hmem := List.of_mem_zip hp
    exact FloatVal.mul_fin_ne_nan (ne_of_gt (hws p.1 hmem.1))
      (fun hcc => hnan (hcc ▸ hmem.2)) hpv
  · rintro ⟨hp, hn⟩
    apply hmix
    obtain ⟨p, hpz, hpv⟩ := List.mem_map.mp hp
    obtain ⟨r, hrz, hrv⟩ := List.mem_map.mp hn
    have hpm := List.of_mem_zip hpz
    have hrm := List.of_mem_zip hrz
    exact ⟨(FloatVal.mul_pos_posInf_iff (hws p.1 hpm.1)).mp hpv ▸ hpm.2,
      (FloatVal.mul_pos_negInf_iff (hws r.1 hrm.1)).mp hrv ▸ hrm.2⟩
  · intro hc
    cases hc
  · intro hc
    cases hc
  · intro hc
    cases hc

lemma qpF_no_mix {closes : List ℚ} (hlen : 2 ≤ closes.length) {a b : ℕ}
    (ha : 1 ≤ a) (hb : 1 ≤ b)
    (hpa : quarters_perfF closes a = .posInf)
    (hnb : quarters_perfF closes b = .negInf) : False := by
  rcases le_total a b with h | h
  · have := qpF_inf_eq hlen ha h (Or.inl hpa) (by rw [hnb]; intro hc; cases hc)
    rw [hnb, hpa] at this
    cases this
  · have := qpF_inf_eq hlen hb h (Or.inr hnb) (by rw [hpa]; intro hc; cases hc)
    rw [hpa, hnb] at this
    cases this

lemma qpF_nil (n : ℕ) : quarters_perfF ([] : List ℚ) n = .nan := by
  simp [quarters_perfF, takeTrailing]

lemma qpF_len_one {closes : List ℚ} (h : closes.length = 1) {n : ℕ} (hn : 1 ≤ n) :
    quarters_perfF closes n = .fin 0 := by
  have h63 : 63 ≤ n * 63 := Nat.le_mul_of_pos_left 63 (by omega)
  have hmin : min closes.length (n * 63) = 1 := by
    rw [h]
    omega
  have htt : takeTrailing closes (min closes.length (n * 63)) = closes := by
    rw [hmin]
    unfold takeTrailing
    rw [if_neg (by omega), h]
    simp
  unfold quarters_perfF
  rw [htt, if_neg (by omega), if_pos h]

lemma FloatVal.add_fin_fin (a b : ℚ) : FloatVal.add (.fin a) (.fin b) = .fin (a + b) := rfl

lemma FloatVal.mul_fin_fin (a b : ℚ) : FloatVal.mul (.fin a) (.fin b) = .fin (a * b) := rfl

lemma strengthF_eval_one {closes : List ℚ} (h1 : quarters_perfF closes 1 ≠ .nan)
    (h2 : quarters_perfF closes 2 = .nan) (h3 : quarters_perfF closes 3 = .nan)
    (h4 : quarters_perfF closes 4 = .nan) :
    strengthF closes = (([(1 : ℚ)].zip [quarters_perfF closes 1]).map
      (fun p => FloatVal.mul (.fin p.1) p.2)).foldl FloatVal.add (.fin 0) := by
  simp [strengthF, h1, h2, h3, h4, List.filter_cons]
  norm_num [List.zip_cons_cons]

lemma strengthF_eval_two {closes : List ℚ} (h1 : quarters_perfF closes 1 ≠ .nan)
    (h2 : quarters_perfF closes 2 ≠ .nan) (h3 : quarters_perfF closes 3 = .nan)
    (h4 : quarters_perfF closes 4 = .nan) :
    strengthF closes = (([(2 : ℚ)/3, 1/3].zip
      [quarters_perfF closes 1, quarters_perfF closes 2]).map
      (fun p => FloatVal.mul (.fin p.1) p.2)).foldl FloatVal.add (.fin 0) := by
  simp [strengthF, h1, h2, h3, h4, List.filter_cons]
  norm_num [List.zip_cons_cons]

lemma strengthF_eval_three {closes : List ℚ} (h1 : quarters_perfF closes 1 ≠ .nan)
    (h2 : quarters_perfF closes 2 ≠ .nan) (h3 : quarters_perfF closes 3 ≠ .nan)
    (h4 : quarters_perfF closes 4 = .nan) :
    strengthF closes = (([(1 : ℚ)/2, 1/4, 1/4].zip
      [quarters_perfF closes 1, quarters_perfF closes 2, quarters_perfF closes 3]).map
      (fun p => FloatVal.mul (.fin p.1) p.2)).foldl FloatVal.add (.fin 0) := by
  simp [strengthF, h1, h2, h3, h4, List.filter_cons]
  norm_num [List.zip_cons_cons]

lemma strengthF_eval_four {closes : List ℚ} (h1 : quarters_perfF closes 1 ≠ .nan)
    (h2 : quarters_perfF closes 2 ≠ .nan) (h3 : quarters_perfF closes 3 ≠ .nan)
    (h4 : quarters_perfF closes 4 ≠ .nan) :
    strengthF closes = (([(2 : ℚ)/5, 1/5, 1/5, 1/5].zip
      [quarters_perfF closes 1, quarters_perfF closes 2, quarters_perfF closes 3,
       quarters_perfF closes 4]).map
      (fun p => FloatVal.mul (.fin p.1) p.2)).foldl FloatVal.add (.fin 0) := by
  simp [strengthF, h1, h2, h3, h4, List.filter_cons]
  norm_num [List.zip_cons_cons]

lemma strengthF_ne_nan_one {closes : List ℚ} (hlen : 2 ≤ closes.length)
    (h1 : quarters_perfF closes 1 ≠ .nan)
    (h2 : quarters_perfF closes 2 = .nan)
    (h3 : quarters_perfF closes 3 = .nan)
    (h4 : quarters_perfF closes 4 = .nan) :
    strengthF closes ≠ .nan := by
  rw [strengthF_eval_one h1 h2 h3 h4]
  apply weighted_foldl_ne_nan
  · intro w hw
    simp only [List.mem_cons, List.mem_singleton, List.not_mem_nil, or_false] at hw
    rcases hw with hw <;> (subst hw; norm_num)
  · intro hc
    simp only [List.mem_cons, List.mem_singleton, List.not_mem_nil, or_false] at hc
    rcases hc with hc <;> first | exact h1 hc.symm
  · rintro ⟨hp, hn⟩
    simp only [List.mem_cons, List.mem_singleton, List.not_mem_nil, or_false] at hp hn
    rcases hp with hp <;> rcases hn with hn <;>
      first
      | (rw [← hp] at hn; cases hn)
      | exact qpF_no_mix hlen (by omega) (by omega) hp.symm hn.symm

lemma strengthF_ne_nan_two {closes : List ℚ} (hlen : 2 ≤ closes.length)
    (h1 : quarters_perfF closes 1 ≠ .nan)
    (h2 : quarters_perfF closes 2 ≠ .nan)
    (h3 : quarters_perfF closes 3 = .nan)
    (h4 : quarters_perfF closes 4 = .nan) :
    strengthF closes ≠ .nan := by
  rw [strengthF_eval_two h1 h2 h3 h4]
  apply weighted_foldl_ne_nan
  · intro w hw
    simp only [List.mem_cons, List.mem_singleton, List.not_mem_nil, or_false] at hw
    rcases hw with hw | hw <;> (subst hw; norm_num)
  · intro hc
    simp only [List.mem_cons, List.mem_singleton, List.not_mem_nil, or_false] at hc
    rcases hc with hc | hc <;> first | exact h1 hc.symm | exact h2 hc.symm
  · rintro ⟨hp, hn⟩
    simp only [List.mem_cons, List.mem_singleton, List.not_mem_nil, or_false] at hp hn
    rcases hp with hp | hp <;> rcases hn with hn | hn <;>
      first
      | (rw [← hp] at hn; cases hn)
      | exact qpF_no_mix hlen (by omega) (by omega) hp.symm hn.symm

lemma strengthF_ne_nan_three {closes : List ℚ} (hlen : 2 ≤ closes.length)
    (h1 : quarters_perfF closes 1 ≠ .nan)
    (h2 : quarters_perfF closes 2 ≠ .nan)
    (h3 : quarters_perfF closes 3 ≠ .nan)
    (h4 : quarters_perfF closes 4 = .nan) :
    strengthF closes ≠ .nan := by
  rw [strengthF_eval_three h1 h2 h3 h4]
  apply weighted_foldl_ne_nan
  · intro w hw
    simp only [List.mem_cons, List.mem_singleton, List.not_mem_nil, or_false] at hw
    rcases hw with hw | hw | hw <;> (subst hw; norm_num)
  · intro hc
    simp only [List.mem_cons, List.mem_singleton, List.not_mem_nil, or_false] at hc
    rcases hc with hc | hc | hc <;> first | exact h1 hc.symm | exact h2 hc.symm | exact h3 hc.symm
  · rintro ⟨hp, hn⟩
    simp only [List.mem_cons, List.mem_singleton, List.not_mem_nil, or_false] at hp hn
    rcases hp with hp | hp | hp <;> rcases hn with hn | hn | hn <;>
      first
      | (rw [← hp] at hn; cases hn)
      | exact qpF_no_mix hlen (by omega) (by omega) hp.symm hn.symm

lemma strengthF_ne_nan_four {closes : List ℚ} (hlen : 2 ≤ closes.length)
    (h1 : quarters_perfF closes 1 ≠ .nan)
    (h2 : quarters_perfF closes 2 ≠ .nan)
    (h3 : quarters_perfF closes 3 ≠ .nan)
    (h4 : quarters_perfF closes 4 ≠ .nan) :
    strengthF closes ≠ .nan := by
  rw [strengthF_eval_four h1 h2 h3 h4]
  apply weighted_foldl_ne_nan
  · intro w hw
    simp only [List.mem_cons, List.mem_singleton, List.not_mem_nil, or_false] at hw
    rcases hw with hw | hw | hw | hw <;> (subst hw; norm_num)
  · intro hc
    simp only [List.mem_cons, List.mem_singleton, List.not_mem_nil, or_false] at hc
    rcases hc with hc | hc | hc | hc <;> first | exact h1 hc.symm | exact h2 hc.symm | exact h3 hc.symm | exact h4 hc.symm
  · rintro ⟨hp, hn⟩
    simp only [List.mem_cons, List.mem_singleton, List.not_mem_nil, or_false] at hp hn
    rcases hp with hp | hp | hp | hp <;> rcases hn with hn | hn | hn | hn <;>
      first
      | (rw [← hp] at hn; cases hn)
      | exact qpF_no_mix hlen (by omega) (by omega) hp.symm hn.symm

/-- C3: `strength` computes the four performance windows in the source's
float semantics with base weights [0.4, 0.2, 0.2, 0.2], drops every
(weight, figure) pair whose figure is NaN, and renormalizes the kept
weights to sum to 1 before taking the weighted sum; on every price series
(zero prices included) it agrees with the spec-worded drop-and-renormalize
description, and the result is NaN iff all four windows are NaN. -/
theorem C3_strength_drop_renormalize (closes : List ℚ) :
    strengthF closes = strengthSpecF closes ∧
    (strengthF closes = .nan ↔
      (quarters_perfF closes 1 = .nan ∧ quarters_perfF closes 2 = .nan ∧
       quarters_perfF closes 3 = .nan ∧ quarters_perfF closes 4 = .nan)) := by
  by_cases hlen0 : closes.length = 0
  · have hnil : closes = [] := List.length_eq_zero.mp hlen0
    subst hnil
    have e1 := qpF_nil 1
    have e2 := qpF_nil 2
    have e3 := qpF_nil 3
    have e4 := qpF_nil 4
    have hs : strengthF [] = .nan := by
      simp [strengthF, e1, e2, e3, e4, List.filter_cons]
    have ht : strengthSpecF [] = .nan := by
      simp [strengthSpecF, e1, e2, e3, e4, List.filter_cons]
    refine ⟨hs.trans ht.symm, ?_⟩
    rw [hs]
    simp [e1, e2, e3, e4]
  by_cases hlen1 : closes.length = 1
  · have e1 := qpF_len_one hlen1 (show 1 ≤ 1 by omega)
    have e2 := qpF_len_one hlen1 (show 1 ≤ 2 by omega)
    have e3 := qpF_len_one hlen1 (show 1 ≤ 3 by omega)
    have e4 := qpF_len_one hlen1 (show 1 ≤ 4 by omega)
    have hs : strengthF closes = .fin 0 := by
      simp [strengthF, e1, e2, e3, e4, List.filter_cons, FloatVal.mul_fin_fin,
        FloatVal.add_fin_fin]
      try norm_num [FloatVal.mul_fin_fin, FloatVal.add_fin_fin]
    have ht : strengthSpecF closes = .fin 0 := by
      simp [strengthSpecF, e1, e2, e3, e4, List.filter_cons, FloatVal.mul_fin_fin,
        FloatVal.add_fin_fin]
      try norm_num [FloatVal.mul_fin_fin, FloatVal.add_fin_fin]
    refine ⟨hs.trans ht.symm, ?_⟩
    rw [hs]
    constructor
    · intro hc
      cases hc
    · rintro ⟨hc, _, _, _⟩
      rw [e1] at hc
      cases hc
  have hlen : 2 ≤ closes.length := by omega
  by_cases hq1 : quarters_perfF closes 1 = .nan
  · have hd2 := qpF_nan_up (m := 2) hlen (by omega) (by omega) hq1
    have hd3 := qpF_nan_up (m := 3) hlen (by omega) (by omega) hq1
    have hd4 := qpF_nan_up (m := 4) hlen (by omega) (by omega) hq1
    rcases hd2 with h2 | h2 <;> rcases hd3 with h3 | h3 <;> rcases hd4 with h4 | h4
    · have hs : strengthF closes = .nan := by
        simp [strengthF, hq1, h2, h3, h4, List.filter_cons]
      have ht : strengthSpecF closes = .nan := by
        simp [strengthSpecF, hq1, h2, h3, h4, List.filter_cons]
      refine ⟨hs.trans ht.symm, ?_⟩
      rw [hs]
      simp [hq1, h2, h3, h4]
    · have hs : strengthF closes = .fin (-1) := by
        simp [strengthF, hq1, h2, h3, h4, List.filter_cons, FloatVal.mul_fin_fin,
          FloatVal.add_fin_fin]
        try norm_num [FloatVal.mul_fin_fin, FloatVal.add_fin_fin]
      have ht : strengthSpecF closes = .fin (-1) := by
        simp [strengthSpecF, hq1, h2, h3, h4, List.filter_cons, FloatVal.mul_fin_fin,
          FloatVal.add_fin_fin]
        try norm_num [FloatVal.mul_fin_fin, FloatVal.add_fin_fin]
      refine ⟨hs.trans ht.symm, ?_⟩
      rw [hs]
      constructor
      · intro hc
        cases hc
      · rintro ⟨_, hc2, hc3, hc4⟩
        rw [h4] at hc4
        cases hc4
    · have hs : strengthF closes = .fin (-1) := by
        simp [strengthF, hq1, h2, h3, h4, List.filter_cons, FloatVal.mul_fin_fin,
          FloatVal.add_fin_fin]
        try norm_num [FloatVal.mul_fin_fin, FloatVal.add_fin_fin]
      have ht : strengthSpecF closes = .fin (-1) := by
        simp [strengthSpecF, hq1, h2, h3, h4, List.filter_cons, FloatVal.mul_fin_fin,
          FloatVal.add_fin_fin]
        try norm_num [FloatVal.mul_fin_fin, FloatVal.add_fin_fin]
      refine ⟨hs.trans ht.symm, ?_⟩
      rw [hs]
      constructor
      · intro hc
        cases hc
      · rintro ⟨_, hc2, hc3, hc4⟩
        rw [h3] at hc3
        cases hc3
    · have hs : strengthF closes = .fin (-1) := by
        simp [strengthF, hq1, h2, h3, h4, List.filter_cons, FloatVal.mul_fin_fin,
          FloatVal.add_fin_fin]
        try norm_num [FloatVal.mul_fin_fin, FloatVal.add_fin_fin]
      have ht : strengthSpecF closes = .fin (-1) := by
        simp [strengthSpecF, hq1, h2, h3, h4, List.filter_cons, FloatVal.mul_fin_fin,
          FloatVal.add_fin_fin]
        try norm_num [FloatVal.mul_fin_fin, FloatVal.add_fin_fin]
      refine ⟨hs.trans ht.symm, ?_⟩
      rw [hs]
      constructor
      · intro hc
        cases hc
      · rintro ⟨_, hc2, hc3, hc4⟩
        rw [h3] at hc3
        cases hc3
    · have hs : strengthF closes = .fin (-1) := by
        simp [strengthF, hq1, h2, h3, h4, List.filter_cons, FloatVal.mul_fin_fin,
          FloatVal.add_fin_fin]
        try norm_num [FloatVal.mul_fin_fin, FloatVal.add_fin_fin]
      have ht : strengthSpecF closes = .fin (-1) := by
        simp [strengthSpecF, hq1, h2, h3, h4, List.filter_cons, FloatVal.mul_fin_fin,
          FloatVal.add_fin_fin]
        try norm_num [FloatVal.mul_fin_fin, FloatVal.add_fin_fin]
      refine ⟨hs.trans ht.symm, ?_⟩
      rw [hs]
      constructor
      · intro hc
        cases hc
      · rintro ⟨_, hc2, hc3, hc4⟩
        rw [h2] at hc2
        cases hc2
    · have hs : strengthF closes = .fin (-1) := by
        simp [strengthF, hq1, h2, h3, h4, List.filter_cons, FloatVal.mul_fin_fin,
          FloatVal.add_fin_fin]
        try norm_num [FloatVal.mul_fin_fin, FloatVal.add_fin_fin]
      have ht : strengthSpecF closes = .fin (-1) := by
        simp [strengthSpecF, hq1, h2, h3, h4, List.filter_cons, FloatVal.mul_fin_fin,
          FloatVal.add_fin_fin]
        try norm_num [FloatVal.mul_fin_fin, FloatVal.add_fin_fin]
      refine ⟨hs.trans ht.symm, ?_⟩
      rw [hs]
      constructor
      · intro hc
        cases hc
      · rintro ⟨_, hc2, hc3, hc4⟩
        rw [h2] at hc2
        cases hc2
    · have hs : strengthF closes = .fin (-1) := by
        simp [strengthF, hq1, h2, h3, h4, List.filter_cons, FloatVal.mul_fin_fin,
          FloatVal.add_fin_fin]
        try norm_num [FloatVal.mul_fin_fin, FloatVal.add_fin_fin]
      have ht : strengthSpecF closes = .fin (-1) := by
        simp [strengthSpecF, hq1, h2, h3, h4, List.filter_cons, FloatVal.mul_fin_fin,
          FloatVal.add_fin_fin]
        try norm_num [FloatVal.mul_fin_fin, FloatVal.add_fin_fin]
      refine ⟨hs.trans ht.symm, ?_⟩
      rw [hs]
      constructor
      · intro hc
        cases hc
      · rintro ⟨_, hc2, hc3, hc4⟩
        rw [h2] at hc2
        cases hc2
    · have hs : strengthF closes = .fin (-1) := by
        simp [strengthF, hq1, h2, h3, h4, List.filter_cons, FloatVal.mul_fin_fin,
          FloatVal.add_fin_fin]
        try norm_num [FloatVal.mul_fin_fin, FloatVal.add_fin_fin]
      have ht : strengthSpecF closes = .fin (-1) := by
        simp [strengthSpecF, hq1, h2, h3, h4, List.filter_cons, FloatVal.mul_fin_fin,
          FloatVal.add_fin_fin]
        try norm_num [FloatVal.mul_fin_fin, FloatVal.add_fin_fin]
      refine ⟨hs.trans ht.symm, ?_⟩
      rw [hs]
      constructor
      · intro hc
        cases hc
      · rintro ⟨_, hc2, hc3, hc4⟩
        rw [h2] at hc2
        cases hc2
  · by_cases hq2 : quarters_perfF closes 2 = .nan
    · have hq3 : quarters_perfF closes 3 = .nan :=
        qpF_nan_mono (m := 3) hlen (by omega) (by omega) hq1 hq2
      have hq4 : quarters_perfF closes 4 = .nan :=
        qpF_nan_mono (m := 4) hlen (by omega) (by omega) hq1 hq2
      have heq : strengthF closes = strengthSpecF closes := by
        simp [strengthF, strengthSpecF, hq1, hq2, hq3, hq4, List.filter_cons]
        try norm_num [List.zip_cons_cons]
      have hne : strengthF closes ≠ .nan :=
        strengthF_ne_nan_one hlen hq1 hq2 hq3 hq4
      exact ⟨heq, ⟨fun hc => absurd hc hne, fun ⟨hc, _, _, _⟩ => absurd hc hq1⟩⟩
    · by_cases hq3 : quarters_perfF closes 3 = .nan
      · have hq4 : quarters_perfF closes 4 = .nan :=
          qpF_nan_mono (m := 4) hlen (by omega) (by omega) hq1 hq3
        have heq : strengthF closes = strengthSpecF closes := by
          simp [strengthF, strengthSpecF, hq1, hq2, hq3, hq4, List.filter_cons]
          try norm_num [List.zip_cons_cons]
        have hne : strengthF closes ≠ .nan :=
          strengthF_ne_nan_two hlen hq1 hq2 hq3 hq4
        exact ⟨heq, ⟨fun hc => absurd hc hne, fun ⟨hc, _, _, _⟩ => absurd hc hq1⟩⟩
      · by_cases hq4 : quarters_perfF closes 4 = .nan
        · have heq : strengthF closes = strengthSpecF closes := by
            simp [strengthF, strengthSpecF, hq1, hq2, hq3, hq4, List.filter_cons]
            try norm_num [List.zip_cons_cons]
          have hne : strengthF closes ≠ .nan :=
            strengthF_ne_nan_three hlen hq1 hq2 hq3 hq4
          exact ⟨heq, ⟨fun hc => absurd hc hne, fun ⟨hc, _, _, _⟩ => absurd hc hq1⟩⟩
        · have heq : strengthF closes = strengthSpecF closes := by
            simp [strengthF, strengthSpecF, hq1, hq2, hq3, hq4, List.filter_cons]
            try norm_num [List.zip_cons_cons]
          have hne : strengthF closes ≠ .nan :=
            strengthF_ne_nan_four hlen hq1 hq2 hq3 hq4
          exact ⟨heq, ⟨fun hc => absurd hc hne, fun ⟨hc, _, _, _⟩ => absurd hc hq1⟩⟩

lemma compoundedReturnF_exact {w : List ℚ} (h : ∀ c ∈ w, c ≠ 0)
    (hlen : 2 ≤ w.length) :
    compoundedReturnF w = .fin (compoundedReturn w) := by
  have hmap := pct_changesF_all_nonzero h
  have hne : pct_changesF w ≠ [] := by
    rw [hmap]
    intro hc
    have hnil : pct_changes w = [] := by simpa using hc
    have hl := pct_changes_length w
    rw [hnil] at hl
    simp at hl
    omega
  unfold compoundedReturnF
  rw [if_neg hne, hmap]
  have hcomp : ((pct_changes w).map FloatVal.fin).map (fun p => FloatVal.add p (.fin 1))
      = ((pct_changes w).map (fun p => p + 1)).map FloatVal.fin := by
    rw [List.map_map, List.map_map]
    rfl
  rw [hcomp]
  unfold FloatVal.prodList
  rw [foldl_mul_map_fin, FloatVal.add_fin_fin]
  unfold compoundedReturn
  rw [sub_eq_add_neg]
  norm_num

lemma pctF_one_zero : pctF 1 0 = FloatVal.fin (-1) := by
  unfold pctF
  rw [if_neg (by norm_num : ¬(1 : ℚ) = 0)]
  norm_num

lemma pctF_zero_one : pctF 0 1 = FloatVal.posInf := by
  unfold pctF
  rw [if_pos rfl, if_neg (by norm_num : ¬(1 : ℚ) = 0), if_pos (by norm_num : (0 : ℚ) < 1)]

lemma compoundedReturn_replicate_one (k : ℕ) :
    compoundedReturn (List.replicate k (1 : ℚ)) = 0 := by
  unfold compoundedReturn
  rw [List.prod_eq_one]
  · norm_num
  · intro x hx
    obtain ⟨p, hp, rfl⟩ := List.mem_map.mp hx
    unfold pct_changes at hp
    obtain ⟨pr, hpr, rfl⟩ := List.mem_map.mp hp
    have hmem := List.of_mem_zip hpr
    have e1 : pr.1 = 1 := List.eq_of_mem_replicate hmem.1
    have e2 : pr.2 = 1 := by
      have h2 := hmem.2
      rw [List.tail_replicate] at h2
      exact List.eq_of_mem_replicate h2
    rw [e1, e2]
    norm_num

-- C10 counterexample pieces
example : trailingWindow ((1:ℚ) :: 0 :: List.replicate 63 1) 1 = List.replicate 63 (1:ℚ) := by
  unfold trailingWindow
  norm_num

example : trailingWindow ((1:ℚ) :: 0 :: List.replicate 63 1) 2 = (1:ℚ) :: 0 :: List.replicate 63 1 := by
  unfold trailingWindow
  norm_num

lemma qpF_fin_of_nonzero {closes : List ℚ} (hlen : 1 ≤ closes.length)
    (hnz : ∀ c ∈ closes, c ≠ 0) {n : ℕ} (hn : 1 ≤ n) :
    ∃ g : ℚ, quarters_perfF closes n = .fin g := by
  by_cases h1 : closes.length = 1
  · exact ⟨0, qpF_len_one h1 hn⟩
  · have h2 : 2 ≤ closes.length := by omega
    have hw2 : 2 ≤ (trailingWindow closes n).length := trailingWindow_two_le hn h2
    have hsub : ∀ c ∈ trailingWindow closes n, c ≠ 0 := by
      intro c hc
      unfold trailingWindow at hc
      exact hnz c (List.mem_of_mem_drop hc)
    rw [quarters_perfF_of_two_le hn hw2, compoundedReturnF_exact hsub hw2]
    exact ⟨_, rfl⟩

/-- C10 counterexample: the series 1, 0, 1, 1, ..., 1 of 65 all-finite
prices keeps the zero out of its one-quarter trailing window, so the
n = 1 figure is the defined value 0, while the two-quarter window meets
the 0-price step and its figure is NaN; strength therefore drops a
strict subset of the (weight, figure) pairs and returns the
partially-renormalized sum 0 instead of the claimed four-term weighted
sum, refuting the claim that all four windows are simultaneously
defined on every nonempty finite series. -/
theorem C10_partial_renormalization_counterexample :
    1 ≤ ((1:ℚ) :: 0 :: List.replicate 63 1).length ∧
    quarters_perfF ((1:ℚ) :: 0 :: List.replicate 63 1) 1 = FloatVal.fin 0 ∧
    quarters_perfF ((1:ℚ) :: 0 :: List.replicate 63 1) 2 = FloatVal.nan ∧
    strengthF ((1:ℚ) :: 0 :: List.replicate 63 1) = FloatVal.fin 0 := by
  have hlen65 : 2 ≤ ((1:ℚ) :: 0 :: List.replicate 63 1).length := by
    simp
  have hw1 : trailingWindow ((1:ℚ) :: 0 :: List.replicate 63 1) 1
      = List.replicate 63 (1:ℚ) := by
    unfold trailingWindow
    norm_num
  have hw2 : trailingWindow ((1:ℚ) :: 0 :: List.replicate 63 1) 2
      = (1:ℚ) :: 0 :: List.replicate 63 1 := by
    unfold trailingWindow
    norm_num
  have hq1 : quarters_perfF ((1:ℚ) :: 0 :: List.replicate 63 1) 1 = FloatVal.fin 0 := by
    rw [quarters_perfF_of_two_le (by norm_num) (by rw [hw1]; simp), hw1]
    rw [compoundedReturnF_exact (fun c hc => by rw [List.eq_of_mem_replicate hc]; norm_num)
      (by simp)]
    rw [compoundedReturn_replicate_one]
  have hpc2 : pct_changesF ((1:ℚ) :: 0 :: List.replicate 63 1)
      = FloatVal.fin (-1) :: FloatVal.posInf :: pct_changesF ((1:ℚ) :: List.replicate 62 1) := by
    rw [pct_changesF_cons]
    rw [if_neg (by rw [pctF_one_zero]; intro hc; cases hc)]
    rw [pctF_one_zero]
    rw [show ((0:ℚ) :: List.replicate 63 1) = (0:ℚ) :: 1 :: List.replicate 62 1 from rfl]
    rw [pct_changesF_cons]
    rw [if_neg (by rw [pctF_zero_one]; intro hc; cases hc)]
    rw [pctF_zero_one]
    rfl
  have hq2 : quarters_perfF ((1:ℚ) :: 0 :: List.replicate 63 1) 2 = FloatVal.nan := by
    rw [quarters_perfF_of_two_le (by norm_num) (by rw [hw2]; exact hlen65), hw2]
    apply compoundedReturnF_nan_of_crash_inf
    · rw [hpc2]
      simp
    · left
      rw [hpc2]
      simp
  have h1ne : quarters_perfF ((1:ℚ) :: 0 :: List.replicate 63 1) 1 ≠ FloatVal.nan := by
    rw [hq1]
    intro hc
    cases hc
  have hq3 := qpF_nan_mono (m := 3) hlen65 (by omega) (by omega) h1ne hq2
  have hq4 := qpF_nan_mono (m := 4) hlen65 (by omega) (by omega) h1ne hq2
  have hsF : strengthF ((1:ℚ) :: 0 :: List.replicate 63 1) = FloatVal.fin 0 := by
    rw [strengthF_eval_one h1ne hq2 hq3 hq4, hq1]
    norm_num [List.zip_cons_cons, FloatVal.mul_fin_fin, FloatVal.add_fin_fin]
  exact ⟨by simp, hq1, hq2, hsF⟩

/-- C10 (amended): for every nonempty price series whose prices are all
nonzero, the four quarterly windows are simultaneously defined with
finite figures g1..g4 and strength returns exactly
0.4*g1 + 0.2*g2 + 0.2*g3 + 0.2*g4, so no pair is dropped and the
partial-renormalization branch is not exercised; on the empty series
strength is NaN. -/
theorem C10_full_weights_nonzero (closes : List ℚ) (hlen : 1 ≤ closes.length)
    (hnz : ∀ c ∈ closes, c ≠ 0) :
    (∃ g1 g2 g3 g4 : ℚ,
      quarters_perfF closes 1 = .fin g1 ∧ quarters_perfF closes 2 = .fin g2 ∧
      quarters_perfF closes 3 = .fin g3 ∧ quarters_perfF closes 4 = .fin g4 ∧
      strengthF closes = .fin (0.4 * g1 + 0.2 * g2 + 0.2 * g3 + 0.2 * g4)) ∧
    strengthF [] = FloatVal.nan := by
  obtain ⟨g1, e1⟩ := qpF_fin_of_nonzero hlen hnz (show 1 ≤ 1 by omega)
  obtain ⟨g2, e2⟩ := qpF_fin_of_nonzero hlen hnz (show 1 ≤ 2 by omega)
  obtain ⟨g3, e3⟩ := qpF_fin_of_nonzero hlen hnz (show 1 ≤ 3 by omega)
  obtain ⟨g4, e4⟩ := qpF_fin_of_nonzero hlen hnz (show 1 ≤ 4 by omega)
  have h1 : quarters_perfF closes 1 ≠ .nan := by rw [e1]; intro hc; cases hc
  have h2 : quarters_perfF closes 2 ≠ .nan := by rw [e2]; intro hc; cases hc
  have h3 : quarters_perfF closes 3 ≠ .nan := by rw [e3]; intro hc; cases hc
  have h4 : quarters_perfF closes 4 ≠ .nan := by rw [e4]; intro hc; cases hc
  have hs := strengthF_eval_four h1 h2 h3 h4
  rw [e1, e2, e3, e4] at hs
  refine ⟨⟨g1, g2, g3, g4, e1, e2, e3, e4, ?_⟩, ?_⟩
  · rw [hs]
    norm_num [List.zip_cons_cons, FloatVal.mul_fin_fin, FloatVal.add_fin_fin]
  · simp [strengthF, qpF_nil, List.filter_cons]

/-- C2 (amended): quarters_perf operates on the trailing
min(len(series), 63n) observations: NaN on an empty series, exactly 0 on
a single observation, and on a window of at least two observations the
source's float-arithmetic compounded return over the dropna'd pct_change
list (which can be NaN or infinite at zero prices); when every price in
the window is nonzero this equals the exact rational compounded return
prod (1 + pct_i) - 1 of the original claim. -/
theorem C2_quarters_perf_windows_float (closes : List ℚ) (n : ℕ) (hn : 1 ≤ n) :
    (closes.length = 0 → quarters_perfF closes n = .nan) ∧
    (closes.length = 1 → quarters_perfF closes n = .fin 0) ∧
    (2 ≤ (trailingWindow closes n).length →
      quarters_perfF closes n = compoundedReturnF (trailingWindow closes n)) ∧
    (2 ≤ (trailingWindow closes n).length →
      (∀ c ∈ trailingWindow closes n, c ≠ 0) →
      quarters_perfF closes n = .fin (compoundedReturn (trailingWindow closes n))) := by
  refine ⟨?_, ?_, ?_, ?_⟩
  · intro h0
    rw [List.length_eq_zero.mp h0]
    exact qpF_nil n
  · intro h1
    exact qpF_len_one h1 hn
  · intro h2
    exact quarters_perfF_of_two_le hn h2
  · intro h2 hnz
    rw [quarters_perfF_of_two_le hn h2]
    exact compoundedReturnF_exact hnz h2

/-- Witness for C2 at the series [1, 2] and n = 1. -/
theorem C2_quarters_perf_windows_float_witness :
    1 ≤ 1 ∧
    quarters_perfF [1, 2] 1 = FloatVal.fin (compoundedReturn (trailingWindow [1, 2] 1)) := by
  have hw : trailingWindow [1, 2] 1 = [1, 2] := by simp [trailingWindow]
  refine ⟨by norm_num, (C2_quarters_perf_windows_float [1, 2] 1 (by norm_num)).2.2.2 ?_ ?_⟩
  · rw [trailingWindow_length]
    norm_num
  · rw [hw]
    intro c hc
    simp only [List.mem_cons, List.not_mem_nil, or_false] at hc
    rcases hc with rfl | rfl <;> norm_num

/-- C2 counterexample: at the series [1, 0, 1] the one-quarter trailing
window has 3 >= 2 observations, yet the cumprod passes through
0 * (+inf) and quarters_perf returns NaN, not the compounded per-step
return the original claim asserts for every window with at least two
observations. -/
theorem C2_zero_price_counterexample :
    2 ≤ (trailingWindow [1, 0, 1] 1).length ∧
    quarters_perfF [1, 0, 1] 1 = FloatVal.nan ∧
    quarters_perfF [1, 0, 1] 1 ≠
      FloatVal.fin (compoundedReturn (trailingWindow [1, 0, 1] 1)) := by
  have hw : trailingWindow [1, 0, 1] 1 = [1, 0, 1] := by simp [trailingWindow]
  have hz : ([1, 0, 1] : List ℚ).zip ([1, 0, 1] : List ℚ).tail = [(1, 0), (0, 1)] := rfl
  have hpc : pct_changesF [1, 0, 1] = [FloatVal.fin (-1), FloatVal.posInf] := by
    unfold pct_changesF
    rw [hz, List.map_cons, List.map_cons, List.map_nil, pctF_one_zero, pctF_zero_one]
    simp [List.filter_cons]
  have hnan : quarters_perfF [1, 0, 1] 1 = FloatVal.nan := by
    rw [quarters_perfF_of_two_le (by norm_num) (by rw [trailingWindow_length]; norm_num), hw]
    unfold compoundedReturnF
    rw [hpc, if_neg (by simp)]
    rw [List.map_cons, List.map_cons, List.map_nil, FloatVal.add_fin_fin]
    norm_num
    rw [show FloatVal.add FloatVal.posInf (FloatVal.fin 1) = FloatVal.posInf from rfl]
    rw [show FloatVal.prodList [FloatVal.fin 0, FloatVal.posInf]
        = FloatVal.mul (FloatVal.mul (FloatVal.fin 1) (FloatVal.fin 0)) FloatVal.posInf from rfl]
    rw [FloatVal.mul_fin_fin]
    norm_num
    rw [show FloatVal.mul (FloatVal.fin 0) FloatVal.posInf = FloatVal.nan by
      unfold FloatVal.mul
      norm_num]
    rfl
  refine ⟨by rw [trailingWindow_length]; norm_num, hnan, ?_⟩
  rw [hnan]
  intro hc
  cases hc

/-- Witness for C10 at the series [1, 2]. -/
theorem C10_full_weights_nonzero_witness :
    1 ≤ ([1, 2] : List ℚ).length ∧
    ((∃ g1 g2 g3 g4 : ℚ,
      quarters_perfF [1, 2] 1 = FloatVal.fin g1 ∧
      quarters_perfF [1, 2] 2 = FloatVal.fin g2 ∧
      quarters_perfF [1, 2] 3 = FloatVal.fin g3 ∧
      quarters_perfF [1, 2] 4 = FloatVal.fin g4 ∧
      strengthF [1, 2] = FloatVal.fin (0.4 * g1 + 0.2 * g2 + 0.2 * g3 + 0.2 * g4)) ∧
    strengthF [] = FloatVal.nan) := by
  refine ⟨by norm_num, C10_full_weights_nonzero [1, 2] (by norm_num) ?_⟩
  intro c hc
  simp only [List.mem_cons, List.not_mem_nil, or_false] at hc
  rcases hc with rfl | rfl <;> norm_num
